import Mathlib

/-!
# Aho-Corasick automaton for nested strings

A shallow embedding of `src/main.cpp`.

The C++ program owns its automaton as a tree of nodes nested by value
(`std::map<char, AhoCorasickNode>`), and reaches into it through raw pointers.
A pointer to a node is modelled as the node's location inside the tree owned by
the root: the list of edge labels leading to it (`Ptr`).  Reading through a
pointer is `deref`, writing through a pointer is `modify`.  Reads return an
`Option`: `none` stands for a dangling pointer.  Loops whose termination is not
structural carry a fuel argument and return `none` when it runs out.

`size_t` fields are modelled as `Nat`; the counters are bounded by the number
of nodes of the trie, so machine overflow does not arise.
-/

namespace AhoKorasik

/-! ## Data model -/

/-- The address of a node: the edge labels on the way from the root. -/
abbrev Ptr := List Char

/-- The record `struct AhoCorasickNode` of the source. -/
structure AhoCorasickNode where
  count_of_nested_substrings : Nat
  is_terminal : Nat
  trie_transitions_ : List (Char × AhoCorasickNode)
  automaton_transitions_cache_ : List (Char × Ptr)
  suffix_link_ : Option Ptr
  terminal_link_ : Option Ptr

/-- The default-constructed node `AhoCorasickNode()`. -/
def AhoCorasickNode.init : AhoCorasickNode :=
  ⟨0, 0, [], [], none, none⟩

/-- The lookup `m.find(ch)` of a map kept as an association list. -/
def mapFind {β : Type} : List (Char × β) → Char → Option β
  | [], _ => none
  | (k, v) :: rest, ch => if k = ch then some v else mapFind rest ch

/-- The assignment `m[ch] = v` of a `std::map`: keys are kept in increasing order. -/
def mapInsert {β : Type} : List (Char × β) → Char → β → List (Char × β)
  | [], ch, v => [(ch, v)]
  | (k, w) :: rest, ch, v =>
    if ch < k then (ch, v) :: (k, w) :: rest
    else if k = ch then (k, v) :: rest
    else (k, w) :: mapInsert rest ch v

/-- A write into the value stored under `ch` (the key set is untouched). -/
def mapModify {β : Type} : List (Char × β) → Char → (β → β) → List (Char × β)
  | [], _, _ => []
  | (k, w) :: rest, ch, f =>
    if k = ch then (k, f w) :: rest else (k, w) :: mapModify rest ch f

/-- The assignment `m[ch] = v` of the `std::unordered_map` used as cache. -/
def cacheSet : List (Char × Ptr) → Char → Ptr → List (Char × Ptr)
  | [], ch, v => [(ch, v)]
  | (k, w) :: rest, ch, v =>
    if k = ch then (k, v) :: rest else (k, w) :: cacheSet rest ch v

/-- Reading through a pointer: the node stored at location `p` below `n`. -/
def deref : AhoCorasickNode → Ptr → Option AhoCorasickNode
  | n, [] => some n
  | n, ch :: p =>
    match mapFind n.trie_transitions_ ch with
    | none => none
    | some c => deref c p

/-- Writing through a pointer: the node at location `p` below `n` becomes `f` of itself. -/
def modify (f : AhoCorasickNode → AhoCorasickNode) : AhoCorasickNode → Ptr → AhoCorasickNode
  | n, [] => f n
  | n, ch :: p =>
    { n with trie_transitions_ := mapModify n.trie_transitions_ ch (fun c => modify f c p) }

mutual
/-- Number of nodes of the tree owned by a node (itself included). -/
def AhoCorasickNode.size : AhoCorasickNode → Nat
  | ⟨_, _, kids, _, _, _⟩ => 1 + sizeKids kids
/-- Number of nodes owned by a list of children. -/
def sizeKids : List (Char × AhoCorasickNode) → Nat
  | [] => 0
  | (_, n) :: rest => n.size + sizeKids rest
end

/-! ## `GetAutomatonTransition` -/

/-- The function `GetAutomatonTransition` of the source.  It returns the automaton after the
cache writes together with the resulting pointer.  The fuel bounds the depth of the recursion
along `suffix_link_`. -/
def GetAutomatonTransition :
    Nat → AhoCorasickNode → Ptr → Char → Option (AhoCorasickNode × Ptr)
  | 0, _, _, _ => none
  | fuel + 1, root, node, ch =>
    match deref root node with
    | none => none
    | some n =>
      match mapFind n.automaton_transitions_cache_ ch with
      | none =>
        match n.suffix_link_ with
        | none => some (root, node)
        | some sl =>
          match GetAutomatonTransition fuel root sl ch with
          | none => none
          | some (root1, res) =>
            some (modify (fun m =>
              { m with automaton_transitions_cache_ :=
                  cacheSet m.automaton_transitions_cache_ ch res }) root1 node, res)
      | some r => some (root, r)

/-! ## `AhoCorasickBuilder` -/

/-- One round of the loop of the static `AddString`: make sure the edge `ch` exists below
`curr_node` and record it in the cache. -/
def AddString.step (curr_node : Ptr) (ch : Char) (n : AhoCorasickNode) : AhoCorasickNode :=
  { n with
    trie_transitions_ :=
      if (mapFind n.trie_transitions_ ch).isNone
      then mapInsert n.trie_transitions_ ch AhoCorasickNode.init
      else n.trie_transitions_
    automaton_transitions_cache_ :=
      cacheSet n.automaton_transitions_cache_ ch (curr_node ++ [ch]) }

/-- The loop of the static `AddString(root, string)`, `curr_node` being the cursor. -/
def AddString.loop : AhoCorasickNode → Ptr → List Char → AhoCorasickNode
  | root, curr_node, [] => modify (fun n => { n with is_terminal := 1 }) root curr_node
  | root, curr_node, ch :: rest =>
    AddString.loop (modify (AddString.step curr_node ch) root curr_node) (curr_node ++ [ch]) rest

/-- The static `AhoCorasickBuilder::AddString(root, string)`. -/
def AddString (root : AhoCorasickNode) (string : List Char) : AhoCorasickNode :=
  AddString.loop root [] string

/-- The `while (prev->suffix_link_ != nullptr)` loop of `CalculateLinks` for the child `ch`.
It returns the final `prev` and, when the loop was left by `break`, the suffix link that was
assigned. -/
def CalculateLinks.walk (root : AhoCorasickNode) (ch : Char) :
    Nat → Ptr → Option (Ptr × Option Ptr)
  | 0, _ => none
  | fuel + 1, prev =>
    match deref root prev with
    | none => none
    | some p =>
      match p.suffix_link_ with
      | none => some (prev, none)
      | some sl =>
        match deref root sl with
        | none => none
        | some s =>
          match mapFind s.trie_transitions_ ch with
          | none => CalculateLinks.walk root ch fuel sl
          | some _ => some (prev, some (sl ++ [ch]))

/-- The suffix-link part of the body of the `for` loop: the walk, and the assignment of the
root when the walk ends at a node without suffix link.  The walk is given one round more than
the depth of `curr_node`; `walk_spec` shows that this suffices. -/
def CalculateLinks.suffixLink (root : AhoCorasickNode) (curr_node : Ptr) (ch : Char) :
    Option AhoCorasickNode :=
  let child := curr_node ++ [ch]
  match CalculateLinks.walk root ch (curr_node.length + 1) curr_node with
  | none => none
  | some (prev, found) =>
    let root1 := match found with
      | some target => modify (fun n => { n with suffix_link_ := some target }) root child
      | none => root
    match deref root1 prev with
    | none => none
    | some p =>
      if p.suffix_link_.isNone
      then some (modify (fun n => { n with suffix_link_ := some [] }) root1 child)
      else some root1

/-- The terminal-link part of the body of the `for` loop. -/
def CalculateLinks.terminalLink (root : AhoCorasickNode) (child : Ptr) :
    Option AhoCorasickNode :=
  match deref root child with
  | none => none
  | some c =>
    match c.suffix_link_ with
    | none => some (modify (fun n => { n with terminal_link_ := none }) root child)
    | some sl =>
      match deref root sl with
      | none => none
      | some s =>
        if s.is_terminal = 0
        then some (modify (fun n => { n with terminal_link_ := s.terminal_link_ }) root child)
        else some (modify (fun n => { n with terminal_link_ := some sl }) root child)

/-- The counting part of the body of the `for` loop, with the update of the running
maximum `res`. -/
def CalculateLinks.count (root : AhoCorasickNode) (curr_node child : Ptr) (res : Nat) :
    Option (AhoCorasickNode × Nat) :=
  match deref root child with
  | none => none
  | some c =>
    match c.suffix_link_ with
    | none =>
      if c.is_terminal ≠ 0
      then some (modify (fun n => { n with count_of_nested_substrings := 1 }) root child, res)
      else some (modify (fun n => { n with count_of_nested_substrings := 0 }) root child, res)
    | some sl =>
      match deref root curr_node, deref root sl with
      | some cur, some s =>
        let count_of_nested_substrings_in_prev := cur.count_of_nested_substrings
        let count_of_nested_substrings_in_suffix_link := s.count_of_nested_substrings
        let root1 := modify (fun n =>
          { n with
            count_of_nested_substrings :=
              max count_of_nested_substrings_in_prev count_of_nested_substrings_in_suffix_link })
          root child
        let root2 := if c.is_terminal ≠ 0
          then modify (fun n =>
            { n with count_of_nested_substrings := n.count_of_nested_substrings + 1 })
            root1 child
          else root1
        match deref root2 child with
        | none => none
        | some c2 =>
          some (root2, if res < c2.count_of_nested_substrings
            then c2.count_of_nested_substrings else res)
      | _, _ => none

/-- The body of the `for` loop of `CalculateLinks` for one child, after the `queue.push`. -/
def CalculateLinks.child (root : AhoCorasickNode) (curr_node : Ptr) (ch : Char) (res : Nat) :
    Option (AhoCorasickNode × Nat) :=
  match CalculateLinks.suffixLink root curr_node ch with
  | none => none
  | some root1 =>
    match CalculateLinks.terminalLink root1 (curr_node ++ [ch]) with
    | none => none
    | some root2 => CalculateLinks.count root2 curr_node (curr_node ++ [ch]) res

/-- The `for` loop of `CalculateLinks` over the children of `curr_node`, in key order. -/
def CalculateLinks.children (curr_node : Ptr) :
    List Char → AhoCorasickNode → List Ptr → Nat → Option (AhoCorasickNode × List Ptr × Nat)
  | [], root, queue, res => some (root, queue, res)
  | ch :: rest, root, queue, res =>
    match CalculateLinks.child root curr_node ch res with
    | none => none
    | some (root1, res1) =>
      CalculateLinks.children curr_node rest root1 (queue ++ [curr_node ++ [ch]]) res1

/-- The `while (!queue.empty())` loop of `CalculateLinks`. -/
def CalculateLinks.loop : Nat → AhoCorasickNode → List Ptr → Nat → Option (AhoCorasickNode × Nat)
  | 0, _, _, _ => none
  | _ + 1, root, [], res => some (root, res)
  | fuel + 1, root, curr_node :: queue, res =>
    match deref root curr_node with
    | none => none
    | some n =>
      match CalculateLinks.children curr_node (n.trie_transitions_.map Prod.fst) root queue res with
      | none => none
      | some (root1, queue1, res1) => CalculateLinks.loop fuel root1 queue1 res1

/-- The static `AhoCorasickBuilder::CalculateLinks(root)`: the automaton with its links and
counters, and the returned maximum.  The `while` loop is given one round more than the trie
has nodes; `CalculateLinks_spec` shows that this suffices. -/
def CalculateLinks (root : AhoCorasickNode) : Option (AhoCorasickNode × Nat) :=
  CalculateLinks.loop (root.size + 1)
    { root with suffix_link_ := none, terminal_link_ := none } [[]] 0

/-- The class `AhoCorasickBuilder`: the strings added so far. -/
structure AhoCorasickBuilder where
  strings_ : List (List Char) := []

/-- The public `AhoCorasickBuilder::AddString(string)`. -/
def AhoCorasickBuilder.AddString (b : AhoCorasickBuilder) (string : List Char) :
    AhoCorasickBuilder :=
  { b with strings_ := b.strings_ ++ [string] }

/-- The trie `Build` hands to `CalculateLinks`. -/
def AhoCorasickBuilder.trie (b : AhoCorasickBuilder) : AhoCorasickNode :=
  b.strings_.foldl AhoKorasik.AddString
    { AhoCorasickNode.init with count_of_nested_substrings := 0 }

/-- The automaton as `Build` leaves it after `CalculateLinks`. -/
def AhoCorasickBuilder.automaton (b : AhoCorasickBuilder) : Option AhoCorasickNode :=
  (CalculateLinks b.trie).map Prod.fst

/-- The method `AhoCorasickBuilder::Build`. -/
def AhoCorasickBuilder.Build (b : AhoCorasickBuilder) : Option Nat :=
  (CalculateLinks b.trie).map Prod.snd

/-! ## `NestedSubstringFinderBuilder` -/

/-- The class `NestedSubstringFinderBuilder`. -/
structure NestedSubstringFinderBuilder where
  strings_ : List (List Char) := []

/-- The method `NestedSubstringFinderBuilder::AddString`. -/
def NestedSubstringFinderBuilder.AddString (b : NestedSubstringFinderBuilder)
    (string : List Char) : NestedSubstringFinderBuilder :=
  { b with strings_ := b.strings_ ++ [string] }

/-- The method `NestedSubstringFinderBuilder::CalcCountOfNestedSubstrings`: the builder after
the call and the returned value. -/
def NestedSubstringFinderBuilder.CalcCountOfNestedSubstrings (b : NestedSubstringFinderBuilder) :
    NestedSubstringFinderBuilder × Option Nat :=
  (b, (b.strings_.foldl AhoCorasickBuilder.AddString ⟨[]⟩).Build)

/-- The method `NestedSubstringFinderBuilder::Reset`. -/
def NestedSubstringFinderBuilder.Reset (_b : NestedSubstringFinderBuilder) :
    NestedSubstringFinderBuilder :=
  { strings_ := [] }

/-! ## Specification-level notions -/

/-- What a node holds apart from the subtrees it owns. -/
structure NodeView where
  count : Nat
  term : Nat
  keys : List Char
  cache : List (Char × Ptr)
  sl : Option Ptr
  tl : Option Ptr

/-- The fields of a node, with the keys of its children in place of the children. -/
def AhoCorasickNode.view (n : AhoCorasickNode) : NodeView :=
  ⟨n.count_of_nested_substrings, n.is_terminal, n.trie_transitions_.map Prod.fst,
    n.automaton_transitions_cache_, n.suffix_link_, n.terminal_link_⟩

/-- The fields of the node at location `p`. -/
def viewAt (t : AhoCorasickNode) (p : Ptr) : Option NodeView :=
  (deref t p).map AhoCorasickNode.view

/-- The location `p` holds a node of the tree `t`. -/
def validB (t : AhoCorasickNode) (p : Ptr) : Bool :=
  (deref t p).isSome

/-- The location `p` holds a node of `t` that is marked terminal. -/
def terminalB (t : AhoCorasickNode) (p : Ptr) : Bool :=
  match deref t p with
  | some n => n.is_terminal != 0
  | none => false

/-- The size of the subtree at location `p` (zero for a dangling pointer). -/
def sizeAt (t : AhoCorasickNode) (p : Ptr) : Nat :=
  match deref t p with
  | some n => n.size
  | none => 0

/-- The longest suffix of `p` that satisfies `S` (the empty word when there is none). -/
def longestSuffix (S : Ptr → Bool) : Ptr → Ptr
  | [] => []
  | c :: p => if S (c :: p) then c :: p else longestSuffix S p

/-- The longest proper suffix of `p` that satisfies `S`. -/
def suffixLinkSpec (S : Ptr → Bool) (p : Ptr) : Ptr :=
  longestSuffix S p.tail

/-- The suffix link a resolved node must hold: none at the root. -/
def linkSpec (S : Ptr → Bool) (p : Ptr) : Option Ptr :=
  if p = [] then none else some (suffixLinkSpec S p)

/-- The terminal link a resolved node must hold: the first terminal word met along the
suffix links, starting from the suffix link of `p`. -/
def terminalLinkSpec (S T : Ptr → Bool) : Nat → Ptr → Option Ptr
  | 0, _ => none
  | fuel + 1, p =>
    if p = [] then none
    else if T (suffixLinkSpec S p) then some (suffixLinkSpec S p)
    else terminalLinkSpec S T fuel (suffixLinkSpec S p)

/-- The counter a resolved node must hold, by recursion on the length of its path. -/
def nestedCountAux (S T : Ptr → Bool) : Nat → Ptr → Nat
  | 0, _ => 0
  | fuel + 1, p =>
    if p = [] then 0
    else max (nestedCountAux S T fuel p.dropLast) (nestedCountAux S T fuel (suffixLinkSpec S p))
      + (if T p then 1 else 0)

/-- The counter a resolved node must hold. -/
def nestedCount (S T : Ptr → Bool) (p : Ptr) : Nat :=
  nestedCountAux S T (p.length + 1) p

/-- The node at `p` holds the links and the counter of the specification. -/
def Resolved (t : AhoCorasickNode) (p : Ptr) : Prop :=
  ∃ n, deref t p = some n ∧
    n.suffix_link_ = linkSpec (validB t) p ∧
    n.terminal_link_ = terminalLinkSpec (validB t) (terminalB t) (p.length + 1) p ∧
    n.count_of_nested_substrings = nestedCount (validB t) (terminalB t) p

/-- Every node of the trie has pairwise different keys, and its cache holds exactly its
trie edges. -/
def TrieWF (t : AhoCorasickNode) : Prop :=
  ∀ p n, deref t p = some n →
    (n.trie_transitions_.map Prod.fst).Nodup ∧
    ∀ ch, mapFind n.automaton_transitions_cache_ ch =
      if (mapFind n.trie_transitions_ ch).isSome then some (p ++ [ch]) else none

/-- A chain of nested patterns: pairwise different non-empty members of `L`, each one a
contiguous substring of the next. -/
def IsNestedChain (L : List (List Char)) (c : List (List Char)) : Prop :=
  c.Nodup ∧ (∀ x ∈ c, x ∈ L ∧ x ≠ []) ∧ List.Chain' (fun a b => a <:+: b) c

/-- The condition kept by the suffix-link walk for the child `c` of `x`: every proper suffix
of `x` that can be extended by `c` inside `S` is shorter than `prev`. -/
def WalkInv (S : Ptr → Bool) (x : Ptr) (c : Char) (prev : Ptr) : Prop :=
  ∀ y, y <:+ x → y.length < x.length → S (y ++ [c]) = true → y.length < prev.length

/-- The write that resolves the node at `p`: links and counter as specified. -/
def resolveNode (S T : Ptr → Bool) (p : Ptr) (n : AhoCorasickNode) : AhoCorasickNode :=
  { n with
    suffix_link_ := some (suffixLinkSpec S p)
    terminal_link_ := terminalLinkSpec S T (p.length + 1) p
    count_of_nested_substrings := nestedCount S T p }

/-- The invariant of the `while` loop of `CalculateLinks`. -/
structure LoopInv (t : AhoCorasickNode) (queue : List Ptr) (res : Nat) : Prop where
  wf : TrieWF t
  valid : ∀ q ∈ queue, validB t q = true
  sorted : queue.Pairwise (fun a b => a.length ≤ b.length)
  spread : ∀ a ∈ queue, ∀ b ∈ queue, b.length ≤ a.length + 1
  resolved : ∀ q ∈ queue, Resolved t q
  root : Resolved t []
  cover : ∀ q, validB t q = true → q ≠ [] →
    (Resolved t q ∧ nestedCount (validB t) (terminalB t) q ≤ res) ∨
      ∃ a ∈ queue, a <+: q ∧ a ≠ q
  witness : res = 0 ∨
    ∃ q, validB t q = true ∧ q ≠ [] ∧ nestedCount (validB t) (terminalB t) q = res

/-- Every terminal mark of the trie is the value 1 that `AddString` writes. -/
def TermBit (t : AhoCorasickNode) : Prop :=
  ∀ p v, viewAt t p = some v → v.term ≤ 1

/-- What `GetAutomatonTransition` relies on: every suffix link leads to a strictly shallower
node of the trie, and every cached transition leads to a node of the trie. -/
def GoodLinks (t : AhoCorasickNode) : Prop :=
  ∀ p v, viewAt t p = some v →
    (∀ sl, v.sl = some sl → sl.length < p.length ∧ validB t sl = true) ∧
    (∀ ch r, mapFind v.cache ch = some r → validB t r = true)

/-- The number of distinct inserted patterns that are suffixes of the path `p`, the reading of
the nested count given in the specification. -/
def suffixPatternCount (L : List (List Char)) (p : Ptr) : Nat :=
  ((L.dedup).filter (fun w => w.isSuffixOf p)).length

/-- The nodes met by following `suffix_link_` from the node at `p`, the node itself left out. -/
def linkChain (root : AhoCorasickNode) : Nat → Ptr → List Ptr
  | 0, _ => []
  | fuel + 1, p =>
    match deref root p with
    | none => []
    | some n =>
      match n.suffix_link_ with
      | none => []
      | some sl => sl :: linkChain root fuel sl

/-- The suffix link of the child `ch` of `curr` as the specification words the walk: `curr`
is examined first, then the nodes of its suffix-link chain; the first one with a trie edge for
`ch` supplies its child, and the root is taken when there is none. -/
def specifiedWalkTarget (root : AhoCorasickNode) (curr : Ptr) (ch : Char) : Ptr :=
  match (curr :: linkChain root (curr.length + 1) curr).find?
      (fun p => validB root (p ++ [ch])) with
  | some p => p ++ [ch]
  | none => []

/-- The suffix link of the child `ch` of `curr` when the walk examines the nodes of the
suffix-link chain of `curr` only, `curr` itself left out. -/
def walkTarget (root : AhoCorasickNode) (curr : Ptr) (ch : Char) : Ptr :=
  match (linkChain root (curr.length + 1) curr).find? (fun p => validB root (p ++ [ch])) with
  | some p => p ++ [ch]
  | none => []

/-- The cache-free reference definition of the automaton transition, in the words of the
specification: the trie child for `ch` if that edge exists; otherwise the node itself if its
suffix link is none; otherwise the reference transition of its suffix link. -/
def referenceTransition (root : AhoCorasickNode) : Nat → Ptr → Char → Option Ptr
  | 0, _, _ => none
  | fuel + 1, node, ch =>
    match deref root node with
    | none => none
    | some n =>
      match mapFind n.trie_transitions_ ch with
      | some _ => some (node ++ [ch])
      | none =>
        match n.suffix_link_ with
        | none => some node
        | some sl => referenceTransition root fuel sl ch

/-- The reference transition as a function of the set `S` of the paths of the trie. -/
def transitionSpec (S : Ptr → Bool) : Nat → Ptr → Char → Ptr
  | 0, p, _ => p
  | fuel + 1, p, ch =>
    if S (p ++ [ch]) then p ++ [ch]
    else if p = [] then []
    else transitionSpec S fuel (suffixLinkSpec S p) ch

/-- What the cache holds in every state reached by calls of `GetAutomatonTransition`: the
suffix links are the specified ones, every trie edge is cached, and every cached entry is the
reference transition. -/
def TransInv (t : AhoCorasickNode) : Prop :=
  ∀ p v, viewAt t p = some v →
    v.sl = linkSpec (validB t) p ∧
    (∀ ch, ch ∈ v.keys → mapFind v.cache ch = some (p ++ [ch])) ∧
    (∀ ch r, mapFind v.cache ch = some r →
      r = transitionSpec (validB t) (p.length + 1) p ch)

/-- A sequence of calls of `GetAutomatonTransition`, each with its fuel, node and character:
the automaton after the last one. -/
def runCalls : AhoCorasickNode → List (Nat × Ptr × Char) → Option AhoCorasickNode
  | t, [] => some t
  | t, (fuel, node, ch) :: rest =>
    match GetAutomatonTransition fuel t node ch with
    | none => none
    | some (t1, _) => runCalls t1 rest

/-- Whether the body of the `for` loop enters, for the child `ch`, the branch of the counting
part in which the suffix link of the child is none. -/
def CalculateLinks.nullBranch (root : AhoCorasickNode) (curr_node : Ptr) (ch : Char) : Bool :=
  match CalculateLinks.suffixLink root curr_node ch with
  | none => false
  | some root1 =>
    match CalculateLinks.terminalLink root1 (curr_node ++ [ch]) with
    | none => false
    | some root2 =>
      match deref root2 (curr_node ++ [ch]) with
      | none => false
      | some c => c.suffix_link_.isNone

/-- Whether the `for` loop over the children of `curr_node` ever enters that branch. -/
def CalculateLinks.childrenNull (curr_node : Ptr) :
    List Char → AhoCorasickNode → Nat → Bool
  | [], _, _ => false
  | ch :: rest, root, res =>
    CalculateLinks.nullBranch root curr_node ch ||
      match CalculateLinks.child root curr_node ch res with
      | none => false
      | some (root1, res1) => CalculateLinks.childrenNull curr_node rest root1 res1

/-- Whether the `while` loop ever enters that branch. -/
def CalculateLinks.loopNull : Nat → AhoCorasickNode → List Ptr → Nat → Bool
  | 0, _, _, _ => false
  | _ + 1, _, [], _ => false
  | fuel + 1, root, curr_node :: queue, res =>
    match deref root curr_node with
    | none => false
    | some n =>
      CalculateLinks.childrenNull curr_node (n.trie_transitions_.map Prod.fst) root res ||
        match CalculateLinks.children curr_node (n.trie_transitions_.map Prod.fst)
            root queue res with
        | none => false
        | some (root1, queue1, res1) => CalculateLinks.loopNull fuel root1 queue1 res1

/-- Whether a run of `CalculateLinks` ever enters the branch of the counting part in which the
suffix link of the child is none. -/
def CalculateLinks.takesNullBranch (root : AhoCorasickNode) : Bool :=
  CalculateLinks.loopNull (root.size + 1)
    { root with suffix_link_ := none, terminal_link_ := none } [[]] 0

/-- The number of distinct non-empty patterns of a list. -/
def distinctNonEmpty (L : List (List Char)) : Nat :=
  ((L.dedup).filter (fun w => !w.isEmpty)).length

/-- The length of the longest pattern of a list (zero for the empty list). -/
def longestLength (L : List (List Char)) : Nat :=
  (L.map List.length).foldr max 0


/-! ## Association lists -/

theorem mapFind_mapInsert {β : Type} (m : List (Char × β)) (ch c : Char) (v : β) :
    mapFind (mapInsert m ch v) c = if ch = c then some v else mapFind m c := by
  induction m with
  | nil => simp [mapInsert, mapFind]
  | cons kv rest ih =>
    obtain ⟨k, w⟩ := kv
    by_cases h1 : ch < k
    · simp [mapInsert, mapFind, h1]
    · by_cases h2 : k = ch
      · subst h2
        by_cases h3 : k = c <;> simp [mapInsert, mapFind, h3]
      · by_cases h3 : k = c
        · subst h3
          simp [mapInsert, mapFind, h1, h2, Ne.symm h2]
        · simp [mapInsert, mapFind, h1, h2, h3, ih]

theorem mapFind_mapModify {β : Type} (m : List (Char × β)) (ch c : Char) (f : β → β) :
    mapFind (mapModify m ch f) c = if ch = c then (mapFind m c).map f else mapFind m c := by
  induction m with
  | nil => simp [mapModify, mapFind]
  | cons kv rest ih =>
    obtain ⟨k, w⟩ := kv
    by_cases h2 : k = ch
    · subst h2
      by_cases h3 : k = c <;> simp [mapModify, mapFind, h3]
    · by_cases h3 : k = c
      · subst h3
        simp [mapModify, mapFind, h2, Ne.symm h2]
      · simp [mapModify, mapFind, h2, h3, ih]

theorem mapFind_cacheSet (m : List (Char × Ptr)) (ch c : Char) (v : Ptr) :
    mapFind (cacheSet m ch v) c = if ch = c then some v else mapFind m c := by
  induction m with
  | nil => simp [cacheSet, mapFind]
  | cons kv rest ih =>
    obtain ⟨k, w⟩ := kv
    by_cases h2 : k = ch
    · subst h2
      by_cases h3 : k = c <;> simp [cacheSet, mapFind, h3]
    · by_cases h3 : k = c
      · subst h3
        simp [cacheSet, mapFind, h2, Ne.symm h2]
      · simp [cacheSet, mapFind, h2, h3, ih]

theorem map_fst_mapModify {β : Type} (m : List (Char × β)) (ch : Char) (f : β → β) :
    (mapModify m ch f).map Prod.fst = m.map Prod.fst := by
  induction m with
  | nil => rfl
  | cons kv rest ih =>
    obtain ⟨k, w⟩ := kv
    by_cases h2 : k = ch <;> simp [mapModify, h2, ih]

theorem mapFind_isSome_iff {β : Type} (m : List (Char × β)) (c : Char) :
    (mapFind m c).isSome = true ↔ c ∈ m.map Prod.fst := by
  induction m with
  | nil => simp [mapFind]
  | cons kv rest ih =>
    obtain ⟨k, w⟩ := kv
    by_cases h : k = c
    · simp [mapFind, h]
    · simp [mapFind, h, ih, Ne.symm h]

theorem mapFind_eq_none_iff {β : Type} (m : List (Char × β)) (c : Char) :
    mapFind m c = none ↔ c ∉ m.map Prod.fst := by
  rw [← mapFind_isSome_iff]
  cases mapFind m c <;> simp

theorem map_fst_mapInsert_perm {β : Type} (m : List (Char × β)) (ch : Char) (v : β)
    (h : ch ∉ m.map Prod.fst) :
    ((mapInsert m ch v).map Prod.fst).Perm (ch :: m.map Prod.fst) := by
  induction m with
  | nil => simp [mapInsert]
  | cons kv rest ih =>
    obtain ⟨k, w⟩ := kv
    have hk : ¬ k = ch := by
      intro e; apply h; simp [e]
    have hr : ch ∉ rest.map Prod.fst := by
      intro e; apply h; simp only [List.map_cons, List.mem_cons]; exact Or.inr e
    by_cases h1 : ch < k
    · simp [mapInsert, h1]
    · simp only [mapInsert, h1, hk, if_false, List.map_cons]
      exact ((ih hr).cons k).trans (List.Perm.swap ch k _)

/-! ## Reading and writing through pointers -/

theorem deref_append (t : AhoCorasickNode) (p r : Ptr) :
    deref t (p ++ r) = (deref t p).bind (fun n => deref n r) := by
  induction p generalizing t with
  | nil => simp [deref]
  | cons c p ih =>
    simp only [List.cons_append, deref]
    cases mapFind t.trie_transitions_ c with
    | none => simp
    | some k => simp [ih]

theorem deref_snoc (t : AhoCorasickNode) (p : Ptr) (c : Char) :
    deref t (p ++ [c]) = (deref t p).bind (fun n => mapFind n.trie_transitions_ c) := by
  rw [deref_append]
  congr 1
  funext n
  simp only [deref]
  cases mapFind n.trie_transitions_ c <;> rfl

/-- Writing at `q ++ r` is seen from `q` as a write at `r`. -/
theorem deref_modify_above (f : AhoCorasickNode → AhoCorasickNode) (t : AhoCorasickNode)
    (q r : Ptr) :
    deref (modify f t (q ++ r)) q = (deref t q).map (fun n => modify f n r) := by
  induction q generalizing t with
  | nil => simp [deref]
  | cons c q ih =>
    simp only [List.cons_append, deref, modify, mapFind_mapModify, if_true]
    cases mapFind t.trie_transitions_ c with
    | none => simp
    | some k => simp [ih]

theorem deref_modify_self (f : AhoCorasickNode → AhoCorasickNode) (t : AhoCorasickNode)
    (p : Ptr) :
    deref (modify f t p) p = (deref t p).map f := by
  have h := deref_modify_above f t p []
  simpa [modify] using h

/-- Reading below the place that was written. -/
theorem deref_modify_below (f : AhoCorasickNode → AhoCorasickNode) (t : AhoCorasickNode)
    (p r : Ptr) :
    deref (modify f t p) (p ++ r) = (deref t p).bind (fun n => deref (f n) r) := by
  rw [deref_append, deref_modify_self]
  cases deref t p <;> simp

/-- Reading beside the place that was written. -/
theorem deref_modify_apart (f : AhoCorasickNode → AhoCorasickNode) (t : AhoCorasickNode)
    (p q : Ptr) (h1 : ¬ p <+: q) (h2 : ¬ q <+: p) :
    deref (modify f t p) q = deref t q := by
  induction p generalizing t q with
  | nil => exact absurd (List.nil_prefix) h1
  | cons c p ih =>
    cases q with
    | nil => exact absurd (List.nil_prefix) h2
    | cons d q =>
      simp only [deref, modify, mapFind_mapModify]
      by_cases hcd : c = d
      · subst hcd
        simp only [if_true]
        have h1' : ¬ p <+: q := fun h => h1 ((List.prefix_cons_inj c).2 h)
        have h2' : ¬ q <+: p := fun h => h2 ((List.prefix_cons_inj c).2 h)
        cases mapFind t.trie_transitions_ c with
        | none => simp
        | some k => simp [ih k q h1' h2']
      · simp [hcd]

/-! ## Writes that leave the children in place -/

theorem ptr_cases (p q : Ptr) :
    (∃ r, q = p ++ r) ∨ (∃ c r, p = q ++ c :: r) ∨ (¬ p <+: q ∧ ¬ q <+: p) := by
  by_cases h1 : p <+: q
  · obtain ⟨r, hr⟩ := h1
    exact Or.inl ⟨r, hr.symm⟩
  · by_cases h2 : q <+: p
    · obtain ⟨r, hr⟩ := h2
      cases r with
      | nil =>
        exfalso; apply h1
        rw [List.append_nil] at hr; rw [hr]
      | cons c r => exact Or.inr (Or.inl ⟨c, r, hr.symm⟩)
    · exact Or.inr (Or.inr ⟨h1, h2⟩)

theorem deref_cons_congr (n m : AhoCorasickNode) (c : Char) (r : Ptr)
    (h : m.trie_transitions_ = n.trie_transitions_) :
    deref m (c :: r) = deref n (c :: r) := by
  simp only [deref, h]

theorem view_modify_cons (f : AhoCorasickNode → AhoCorasickNode) (n : AhoCorasickNode)
    (c : Char) (r : Ptr) : (modify f n (c :: r)).view = n.view := by
  simp [modify, AhoCorasickNode.view, map_fst_mapModify]

/-- A write at `p` that keeps the children of the node is invisible from every other node. -/
theorem viewAt_modify_of_ne (f : AhoCorasickNode → AhoCorasickNode)
    (hf : ∀ n, (f n).trie_transitions_ = n.trie_transitions_)
    (t : AhoCorasickNode) (p q : Ptr) (hne : q ≠ p) :
    viewAt (modify f t p) q = viewAt t q := by
  unfold viewAt
  rcases ptr_cases p q with ⟨r, rfl⟩ | ⟨c, r, rfl⟩ | ⟨h1, h2⟩
  · cases r with
    | nil => simp at hne
    | cons c r =>
      rw [deref_modify_below, deref_append]
      cases deref t p with
      | none => rfl
      | some n => simp [deref_cons_congr n (f n) c r (hf n)]
  · rw [deref_modify_above]
    cases deref t q with
    | none => rfl
    | some n => simp [view_modify_cons]
  · rw [deref_modify_apart f t p q h1 h2]

theorem viewAt_modify_self (f : AhoCorasickNode → AhoCorasickNode)
    (t : AhoCorasickNode) (p : Ptr) :
    viewAt (modify f t p) p = (deref t p).map (fun n => (f n).view) := by
  unfold viewAt
  rw [deref_modify_self]
  cases deref t p <;> rfl

theorem validB_eq_viewAt (t : AhoCorasickNode) (p : Ptr) :
    validB t p = (viewAt t p).isSome := by
  unfold validB viewAt
  cases deref t p <;> rfl

theorem terminalB_eq_viewAt (t : AhoCorasickNode) (p : Ptr) :
    terminalB t p = match viewAt t p with
      | some v => v.term != 0
      | none => false := by
  unfold terminalB viewAt
  cases deref t p <;> rfl

/-- A write of link or counter fields does not change which locations are valid. -/
theorem validB_modify (f : AhoCorasickNode → AhoCorasickNode)
    (hf : ∀ n, (f n).trie_transitions_ = n.trie_transitions_)
    (t : AhoCorasickNode) (p : Ptr) :
    validB (modify f t p) = validB t := by
  funext q
  by_cases h : q = p
  · subst h
    unfold validB
    rw [deref_modify_self]
    cases deref t q <;> rfl
  · rw [validB_eq_viewAt, validB_eq_viewAt, viewAt_modify_of_ne f hf t p q h]

/-- A write of link or counter fields does not change which nodes are terminal. -/
theorem terminalB_modify (f : AhoCorasickNode → AhoCorasickNode)
    (hf : ∀ n, (f n).trie_transitions_ = n.trie_transitions_)
    (hterm : ∀ n, (f n).is_terminal = n.is_terminal)
    (t : AhoCorasickNode) (p : Ptr) :
    terminalB (modify f t p) = terminalB t := by
  funext q
  by_cases h : q = p
  · subst h
    unfold terminalB
    rw [deref_modify_self]
    cases deref t q with
    | none => rfl
    | some n => simp [hterm]
  · rw [terminalB_eq_viewAt, terminalB_eq_viewAt, viewAt_modify_of_ne f hf t p q h]

theorem size_eq (n : AhoCorasickNode) : n.size = 1 + sizeKids n.trie_transitions_ := by
  cases n
  simp [AhoCorasickNode.size]

theorem sizeKids_mapModify (m : List (Char × AhoCorasickNode)) (c : Char)
    (g : AhoCorasickNode → AhoCorasickNode) (hg : ∀ k, (g k).size = k.size) :
    sizeKids (mapModify m c g) = sizeKids m := by
  induction m with
  | nil => rfl
  | cons kv rest ih =>
    obtain ⟨k, w⟩ := kv
    by_cases h : k = c
    · simp [mapModify, h, sizeKids, hg]
    · simp [mapModify, h, sizeKids, ih]

theorem size_modify (f : AhoCorasickNode → AhoCorasickNode)
    (hf : ∀ n, (f n).trie_transitions_ = n.trie_transitions_)
    (n : AhoCorasickNode) (p : Ptr) : (modify f n p).size = n.size := by
  induction p generalizing n with
  | nil => simp [modify, size_eq, hf]
  | cons c p ih =>
    rw [size_eq, size_eq n]
    simp only [modify]
    rw [sizeKids_mapModify _ _ _ (fun k => ih k)]

/-- A write of link or counter fields does not change the size of any subtree. -/
theorem sizeAt_modify (f : AhoCorasickNode → AhoCorasickNode)
    (hf : ∀ n, (f n).trie_transitions_ = n.trie_transitions_)
    (t : AhoCorasickNode) (p q : Ptr) :
    sizeAt (modify f t p) q = sizeAt t q := by
  unfold sizeAt
  rcases ptr_cases p q with ⟨r, rfl⟩ | ⟨c, r, rfl⟩ | ⟨h1, h2⟩
  · cases r with
    | nil =>
      rw [List.append_nil, deref_modify_self]
      cases deref t p with
      | none => rfl
      | some n => simp [size_eq, hf]
    | cons c r =>
      rw [deref_modify_below, deref_append]
      cases deref t p with
      | none => rfl
      | some n => simp [deref_cons_congr n (f n) c r (hf n)]
  · rw [deref_modify_above]
    cases deref t q with
    | none => rfl
    | some n => simp [size_modify f hf]
  · rw [deref_modify_apart f t p q h1 h2]

theorem sizeKids_eq_sum (m : List (Char × AhoCorasickNode))
    (h : (m.map Prod.fst).Nodup) :
    sizeKids m = ((m.map Prod.fst).map (fun c =>
      match mapFind m c with
      | some k => k.size
      | none => 0)).sum := by
  induction m with
  | nil => rfl
  | cons kv rest ih =>
    obtain ⟨k, w⟩ := kv
    simp only [List.map_cons, List.nodup_cons] at h
    simp only [sizeKids, List.map_cons, List.sum_cons, mapFind, if_true]
    rw [ih h.2]
    congr 1
    apply congrArg
    apply List.map_congr_left
    intro c hc
    have hkc : ¬ k = c := by
      intro e; subst e; exact h.1 hc
    simp [hkc]

/-! ## The trie built by `AddString` -/

theorem deref_init_cons (c : Char) (r : Ptr) : deref AhoCorasickNode.init (c :: r) = none := by
  simp [deref, AhoCorasickNode.init, mapFind]

theorem viewAt_append (t n : AhoCorasickNode) (p r : Ptr) (h : deref t p = some n) :
    viewAt t (p ++ r) = viewAt n r := by
  unfold viewAt
  rw [deref_append, h]
  rfl

/-- The fields of every node after one round of the loop of `AddString`. -/
theorem viewAt_step (t n : AhoCorasickNode) (curr : Ptr) (ch : Char)
    (hn : deref t curr = some n) (q : Ptr) :
    viewAt (modify (AddString.step curr ch) t curr) q =
      if q = curr then some (AddString.step curr ch n).view
      else if q = curr ++ [ch] ∧ (mapFind n.trie_transitions_ ch).isNone = true
        then some AhoCorasickNode.init.view
      else viewAt t q := by
  rcases ptr_cases curr q with ⟨r, rfl⟩ | ⟨c, r, rfl⟩ | ⟨h1, h2⟩
  · cases r with
    | nil =>
      simp only [List.append_nil, if_true]
      rw [viewAt_modify_self, hn]
      rfl
    | cons c r =>
      have hne : ¬ curr ++ c :: r = curr := by
        intro e
        have := congrArg List.length e
        simp at this
      rw [if_neg hne]
      have e1 : viewAt (modify (AddString.step curr ch) t curr) (curr ++ c :: r)
          = viewAt (AddString.step curr ch n) (c :: r) := by
        unfold viewAt
        rw [deref_modify_below, hn]
        rfl
      rw [e1, viewAt_append t n curr (c :: r) hn]
      cases hf : mapFind n.trie_transitions_ ch with
      | some k =>
        simp only [Option.isNone_some, and_false, if_false, Bool.false_eq_true]
        unfold viewAt
        rw [deref_cons_congr n (AddString.step curr ch n) c r (by simp [AddString.step, hf])]
      | none =>
        simp only [Option.isNone_none, and_true]
        by_cases hc : ch = c
        · subst hc
          cases r with
          | nil =>
            simp only [if_true]
            simp [viewAt, deref, AddString.step, hf, mapFind_mapInsert]
          | cons d r =>
            have hne2 : ¬ curr ++ ch :: d :: r = curr ++ [ch] := by
              intro e
              have := congrArg List.length e
              simp at this
            rw [if_neg hne2]
            simp [viewAt, deref, AddString.step, hf, mapFind_mapInsert,
              AhoCorasickNode.init, mapFind]
        · have hne2 : ¬ curr ++ c :: r = curr ++ [ch] := by
            intro e
            have e' := List.append_cancel_left e
            simp only [List.cons.injEq] at e'
            exact hc e'.1.symm
          rw [if_neg hne2]
          simp [viewAt, deref, AddString.step, hf, mapFind_mapInsert, hc]
  · have hne : ¬ q = q ++ c :: r := by
      intro e
      have := congrArg List.length e
      simp at this
    have hne2 : ¬ q = (q ++ c :: r) ++ [ch] := by
      intro e
      have := congrArg List.length e
      simp at this
    rw [if_neg hne, if_neg (fun h => hne2 h.1)]
    unfold viewAt
    rw [deref_modify_above]
    cases deref t q with
    | none => rfl
    | some m => simp [view_modify_cons]
  · have hne : ¬ q = curr := by
      intro e; subst e; exact h1 (List.prefix_refl _)
    have hne2 : ¬ q = curr ++ [ch] := by
      intro e; subst e; exact h1 (List.prefix_append _ _)
    rw [if_neg hne, if_neg (fun h => hne2 h.1)]
    unfold viewAt
    rw [deref_modify_apart _ t curr q h1 h2]

theorem validB_step (t n : AhoCorasickNode) (curr : Ptr) (ch : Char)
    (hn : deref t curr = some n) (q : Ptr) :
    validB (modify (AddString.step curr ch) t curr) q = true ↔
      (validB t q = true ∨ q = curr ++ [ch]) := by
  rw [validB_eq_viewAt, validB_eq_viewAt, viewAt_step t n curr ch hn q]
  by_cases h1 : q = curr
  · subst h1
    simp [viewAt, hn]
  · rw [if_neg h1]
    by_cases h2 : q = curr ++ [ch]
    · subst h2
      cases hf : mapFind n.trie_transitions_ ch with
      | none => simp
      | some k =>
        simp only [Option.isNone_some, and_false, if_false, Bool.false_eq_true, or_true,
          iff_true]
        simp [viewAt, deref_snoc, hn, hf]
    · simp [h2]

theorem terminalB_step (t n : AhoCorasickNode) (curr : Ptr) (ch : Char)
    (hn : deref t curr = some n) :
    terminalB (modify (AddString.step curr ch) t curr) = terminalB t := by
  funext q
  rw [terminalB_eq_viewAt, terminalB_eq_viewAt, viewAt_step t n curr ch hn q]
  by_cases h1 : q = curr
  · subst h1
    simp [viewAt, hn, AddString.step, AhoCorasickNode.view]
  · rw [if_neg h1]
    by_cases h2 : q = curr ++ [ch] ∧ (mapFind n.trie_transitions_ ch).isNone = true
    · rw [if_pos h2]
      obtain ⟨h2, h3⟩ := h2
      subst h2
      have : viewAt t (curr ++ [ch]) = none := by
        unfold viewAt
        rw [deref_snoc, hn]
        cases hf : mapFind n.trie_transitions_ ch with
        | none => simp [hf]
        | some k => simp [hf] at h3
      rw [this]
      simp [AhoCorasickNode.init, AhoCorasickNode.view]
    · rw [if_neg h2]

theorem TrieWF_iff (t : AhoCorasickNode) :
    TrieWF t ↔ ∀ p v, viewAt t p = some v →
      v.keys.Nodup ∧ ∀ ch, mapFind v.cache ch = if ch ∈ v.keys then some (p ++ [ch]) else none := by
  unfold TrieWF viewAt
  constructor
  · intro h p v hv
    cases hd : deref t p with
    | none => simp [hd] at hv
    | some n =>
      simp only [hd, Option.map_some', Option.some.injEq] at hv
      subst hv
      obtain ⟨h1, h2⟩ := h p n hd
      refine ⟨h1, fun ch => ?_⟩
      show mapFind n.automaton_transitions_cache_ ch = _
      rw [h2 ch]
      simp only [AhoCorasickNode.view, mapFind_isSome_iff]
  · intro h p n hd
    obtain ⟨h1, h2⟩ := h p n.view (by simp [hd])
    refine ⟨h1, fun ch => ?_⟩
    have := h2 ch
    simp only [AhoCorasickNode.view] at this
    rw [this]
    simp only [mapFind_isSome_iff]

theorem TrieWF_step (t n : AhoCorasickNode) (curr : Ptr) (ch : Char)
    (hn : deref t curr = some n) (hwf : TrieWF t) :
    TrieWF (modify (AddString.step curr ch) t curr) := by
  rw [TrieWF_iff] at hwf ⊢
  intro q v hv
  rw [viewAt_step t n curr ch hn q] at hv
  by_cases h1 : q = curr
  · subst h1
    rw [if_pos rfl] at hv
    simp only [Option.some.injEq] at hv
    subst hv
    obtain ⟨hnd, hc⟩ := hwf q n.view (by simp [viewAt, hn])
    simp only [AhoCorasickNode.view] at hnd hc
    cases hf : mapFind n.trie_transitions_ ch with
    | none =>
      have hnot : ch ∉ n.trie_transitions_.map Prod.fst := (mapFind_eq_none_iff _ _).1 hf
      have hperm := map_fst_mapInsert_perm n.trie_transitions_ ch AhoCorasickNode.init hnot
      simp only [AhoCorasickNode.view, AddString.step, hf, Option.isNone_none, if_true]
      refine ⟨hperm.nodup_iff.2 (List.nodup_cons.2 ⟨hnot, hnd⟩), fun c => ?_⟩
      rw [mapFind_cacheSet, hc c]
      by_cases hcc : ch = c
      · subst hcc
        simp [hperm.mem_iff]
      · have hmem : c ∈ List.map Prod.fst (mapInsert n.trie_transitions_ ch AhoCorasickNode.init)
            ↔ c ∈ List.map Prod.fst n.trie_transitions_ := by
          rw [hperm.mem_iff]
          simp [Ne.symm hcc]
        simp only [hcc, if_false, hmem]
    | some k =>
      have hin : ch ∈ n.trie_transitions_.map Prod.fst := by
        rw [← mapFind_isSome_iff, hf]; rfl
      simp only [AhoCorasickNode.view, AddString.step, hf, Option.isNone_some, if_false,
        Bool.false_eq_true]
      refine ⟨hnd, fun c => ?_⟩
      rw [mapFind_cacheSet, hc c]
      by_cases hcc : ch = c
      · subst hcc
        simp [hin]
      · simp [hcc]
  · rw [if_neg h1] at hv
    by_cases h2 : q = curr ++ [ch] ∧ (mapFind n.trie_transitions_ ch).isNone = true
    · rw [if_pos h2] at hv
      simp only [Option.some.injEq] at hv
      subst hv
      simp [AhoCorasickNode.init, AhoCorasickNode.view, mapFind]
    · rw [if_neg h2] at hv
      exact hwf q v hv

theorem modify_count (f : AhoCorasickNode → AhoCorasickNode)
    (hf : ∀ n, (f n).count_of_nested_substrings = n.count_of_nested_substrings)
    (t : AhoCorasickNode) (p : Ptr) :
    (modify f t p).count_of_nested_substrings = t.count_of_nested_substrings := by
  cases p with
  | nil => exact hf t
  | cons c p => rfl

theorem setTerminal_kids (n : AhoCorasickNode) :
    ({ n with is_terminal := 1 } : AhoCorasickNode).trie_transitions_ = n.trie_transitions_ :=
  rfl

theorem terminalB_setTerminal (t : AhoCorasickNode) (curr : Ptr)
    (hv : validB t curr = true) (q : Ptr) :
    terminalB (modify (fun n => { n with is_terminal := 1 }) t curr) q = true ↔
      (terminalB t q = true ∨ q = curr) := by
  by_cases h : q = curr
  · subst h
    unfold terminalB
    rw [deref_modify_self]
    unfold validB at hv
    cases hd : deref t q with
    | none => simp [hd] at hv
    | some n => simp
  · rw [terminalB_eq_viewAt, terminalB_eq_viewAt,
      viewAt_modify_of_ne _ setTerminal_kids t curr q h]
    simp [h]

theorem TrieWF_setTerminal (t : AhoCorasickNode) (curr : Ptr) (hwf : TrieWF t) :
    TrieWF (modify (fun n => { n with is_terminal := 1 }) t curr) := by
  rw [TrieWF_iff] at hwf ⊢
  intro q v hv
  by_cases h : q = curr
  · subst h
    rw [viewAt_modify_self] at hv
    cases hd : deref t q with
    | none => simp [hd] at hv
    | some n =>
      simp only [hd, Option.map_some', Option.some.injEq] at hv
      subst hv
      exact hwf q n.view (by simp [viewAt, hd])
  · rw [viewAt_modify_of_ne _ setTerminal_kids t curr q h] at hv
    exact hwf q v hv

/-- What the loop of `AddString` does to the trie, the cursor being at a valid node. -/
theorem AddString_loop_spec (s : List Char) (t : AhoCorasickNode) (curr : Ptr)
    (hv : validB t curr = true) (hwf : TrieWF t) :
    (∀ q, validB (AddString.loop t curr s) q = true ↔
      (validB t q = true ∨ ∃ r, r <+: s ∧ q = curr ++ r)) ∧
    (∀ q, terminalB (AddString.loop t curr s) q = true ↔
      (terminalB t q = true ∨ q = curr ++ s)) ∧
    TrieWF (AddString.loop t curr s) ∧
    (AddString.loop t curr s).count_of_nested_substrings = t.count_of_nested_substrings := by
  induction s generalizing t curr with
  | nil =>
    simp only [AddString.loop, List.append_nil]
    refine ⟨fun q => ?_, terminalB_setTerminal t curr hv, TrieWF_setTerminal t curr hwf,
      modify_count (fun n => { n with is_terminal := 1 }) (fun _ => rfl) t curr⟩
    rw [validB_modify _ setTerminal_kids]
    constructor
    · intro h; exact Or.inl h
    · rintro (h | ⟨r, hr, rfl⟩)
      · exact h
      · rw [List.prefix_nil] at hr
        subst hr
        simpa using hv
  | cons ch s ih =>
    simp only [AddString.loop]
    have hv' := hv
    unfold validB at hv'
    cases hn : deref t curr with
    | none => simp [hn] at hv'
    | some n =>
      have hv1 : validB (modify (AddString.step curr ch) t curr) (curr ++ [ch]) = true :=
        (validB_step t n curr ch hn _).2 (Or.inr rfl)
      obtain ⟨i1, i2, i3, i4⟩ :=
        ih (modify (AddString.step curr ch) t curr) (curr ++ [ch]) hv1
          (TrieWF_step t n curr ch hn hwf)
      refine ⟨fun q => ?_, fun q => ?_, i3, ?_⟩
      · rw [i1 q, validB_step t n curr ch hn q]
        constructor
        · rintro ((h | h) | ⟨r, hr, rfl⟩)
          · exact Or.inl h
          · exact Or.inr ⟨[ch], by simp [List.prefix_cons_inj], h⟩
          · exact Or.inr ⟨ch :: r, (List.prefix_cons_inj ch).2 hr, by simp⟩
        · rintro (h | ⟨r, hr, rfl⟩)
          · exact Or.inl (Or.inl h)
          · cases r with
            | nil => left; left; simpa using hv
            | cons d r =>
              obtain ⟨hd, hr'⟩ := List.cons_prefix_cons.1 hr
              subst hd
              exact Or.inr ⟨r, hr', by simp⟩
      · rw [i2 q, terminalB_step t n curr ch hn]
        simp
      · rw [i4]
        exact modify_count (AddString.step curr ch) (fun _ => rfl) t curr

theorem AddString_spec (s : List Char) (t : AhoCorasickNode) (hwf : TrieWF t) :
    (∀ q, validB (AddString t s) q = true ↔ (validB t q = true ∨ q <+: s)) ∧
    (∀ q, terminalB (AddString t s) q = true ↔ (terminalB t q = true ∨ q = s)) ∧
    TrieWF (AddString t s) ∧
    (AddString t s).count_of_nested_substrings = t.count_of_nested_substrings := by
  obtain ⟨h1, h2, h3, h4⟩ := AddString_loop_spec s t [] rfl hwf
  refine ⟨fun q => ?_, fun q => ?_, h3, h4⟩
  · rw [show AddString t s = AddString.loop t [] s from rfl, h1 q]
    simp
  · rw [show AddString t s = AddString.loop t [] s from rfl, h2 q]
    simp

theorem foldl_AddString_spec (L : List (List Char)) (t : AhoCorasickNode) (hwf : TrieWF t) :
    (∀ q, validB (L.foldl AddString t) q = true ↔ (validB t q = true ∨ ∃ w ∈ L, q <+: w)) ∧
    (∀ q, terminalB (L.foldl AddString t) q = true ↔ (terminalB t q = true ∨ q ∈ L)) ∧
    TrieWF (L.foldl AddString t) ∧
    (L.foldl AddString t).count_of_nested_substrings = t.count_of_nested_substrings := by
  induction L generalizing t with
  | nil => simp [hwf]
  | cons s L ih =>
    obtain ⟨h1, h2, h3, h4⟩ := AddString_spec s t hwf
    obtain ⟨i1, i2, i3, i4⟩ := ih (AddString t s) h3
    simp only [List.foldl_cons]
    refine ⟨fun q => ?_, fun q => ?_, i3, i4.trans h4⟩
    · rw [i1 q, h1 q]
      simp only [List.mem_cons, exists_eq_or_imp]
      tauto
    · rw [i2 q, h2 q]
      simp only [List.mem_cons]
      tauto

theorem TrieWF_init : TrieWF AhoCorasickNode.init := by
  intro p n h
  cases p with
  | nil =>
    simp only [deref, Option.some.injEq] at h
    subst h
    simp [AhoCorasickNode.init, mapFind]
  | cons c p => simp [deref_init_cons] at h

theorem validB_init (q : Ptr) : validB AhoCorasickNode.init q = true ↔ q = [] := by
  cases q with
  | nil => simp [validB, deref]
  | cons c q => simp [validB, deref_init_cons]

theorem terminalB_init (q : Ptr) : terminalB AhoCorasickNode.init q = false := by
  cases q with
  | nil => simp [terminalB, deref, AhoCorasickNode.init]
  | cons c q => simp [terminalB, deref_init_cons]

theorem trie_eq (b : AhoCorasickBuilder) :
    b.trie = b.strings_.foldl AddString AhoCorasickNode.init := rfl

/-- The nodes of the trie are the prefixes of the added strings. -/
theorem validB_trie (b : AhoCorasickBuilder) (q : Ptr) :
    validB b.trie q = true ↔ (q = [] ∨ ∃ w ∈ b.strings_, q <+: w) := by
  rw [trie_eq, (foldl_AddString_spec b.strings_ _ TrieWF_init).1 q, validB_init]

/-- The terminal nodes of the trie are the added strings. -/
theorem terminalB_trie (b : AhoCorasickBuilder) (q : Ptr) :
    terminalB b.trie q = true ↔ q ∈ b.strings_ := by
  rw [trie_eq, (foldl_AddString_spec b.strings_ _ TrieWF_init).2.1 q, terminalB_init]
  simp

theorem TrieWF_trie (b : AhoCorasickBuilder) : TrieWF b.trie := by
  rw [trie_eq]
  exact (foldl_AddString_spec b.strings_ _ TrieWF_init).2.2.1

theorem count_trie (b : AhoCorasickBuilder) : b.trie.count_of_nested_substrings = 0 := by
  rw [trie_eq]
  exact (foldl_AddString_spec b.strings_ _ TrieWF_init).2.2.2

/-! ## Longest suffixes -/

theorem longestSuffix_suffix (S : Ptr → Bool) (w : Ptr) : longestSuffix S w <:+ w := by
  induction w with
  | nil => exact List.suffix_refl _
  | cons c p ih =>
    simp only [longestSuffix]
    split
    · exact List.suffix_refl _
    · exact ih.trans (List.suffix_cons c p)

theorem longestSuffix_mem (S : Ptr → Bool) (h0 : S [] = true) (w : Ptr) :
    S (longestSuffix S w) = true := by
  induction w with
  | nil => exact h0
  | cons c p ih =>
    simp only [longestSuffix]
    split
    · assumption
    · exact ih

theorem longestSuffix_max (S : Ptr → Bool) (w z : Ptr) (hz : z <:+ w) (hS : S z = true) :
    z <:+ longestSuffix S w := by
  induction w with
  | nil => exact hz
  | cons c p ih =>
    simp only [longestSuffix]
    split
    · exact hz
    · rename_i hn
      rcases List.suffix_cons_iff.1 hz with h | h
      · rw [h] at hS
        exact absurd hS hn
      · exact ih h

theorem longestSuffix_eq (S : Ptr → Bool) (h0 : S [] = true) (w z : Ptr) (hz : z <:+ w)
    (hS : S z = true) (hmax : ∀ y, y <:+ w → S y = true → y.length ≤ z.length) :
    longestSuffix S w = z := by
  have h1 := longestSuffix_max S w z hz hS
  have h2 := hmax _ (longestSuffix_suffix S w) (longestSuffix_mem S h0 w)
  exact (h1.eq_of_length_le h2).symm

theorem suffixLinkSpec_suffix (S : Ptr → Bool) (p : Ptr) : suffixLinkSpec S p <:+ p.tail :=
  longestSuffix_suffix S p.tail

theorem suffixLinkSpec_length_lt (S : Ptr → Bool) (p : Ptr) (hp : p ≠ []) :
    (suffixLinkSpec S p).length < p.length := by
  have h := (suffixLinkSpec_suffix S p).length_le
  cases p with
  | nil => exact absurd rfl hp
  | cons c p =>
    simp only [List.tail_cons] at h
    simp only [List.length_cons]
    omega

theorem suffixLinkSpec_mem (S : Ptr → Bool) (h0 : S [] = true) (p : Ptr) :
    S (suffixLinkSpec S p) = true :=
  longestSuffix_mem S h0 p.tail

theorem suffix_tail_of_lt (y x : Ptr) (h : y <:+ x) (hlt : y.length < x.length) :
    y <:+ x.tail := by
  cases x with
  | nil => simp at hlt
  | cons c x =>
    rcases List.suffix_cons_iff.1 h with e | e
    · rw [e] at hlt
      exact absurd hlt (Nat.lt_irrefl _)
    · exact e

theorem suffix_of_suffix_tail (y x : Ptr) (h : y <:+ x.tail) : y <:+ x :=
  h.trans (List.tail_suffix x)

theorem length_lt_of_suffix_tail (y x : Ptr) (hx : x ≠ []) (h : y <:+ x.tail) :
    y.length < x.length := by
  have := h.length_le
  cases x with
  | nil => exact absurd rfl hx
  | cons c x =>
    simp only [List.tail_cons] at this
    simp only [List.length_cons]
    omega

theorem WalkInv_start (S : Ptr → Bool) (x : Ptr) (c : Char) : WalkInv S x c x :=
  fun _ _ hlt _ => hlt

/-- The walk moves on: the suffix link of `prev` cannot be extended by `c`. -/
theorem WalkInv_step (S : Ptr → Bool) (hpre : ∀ p r, S (p ++ r) = true → S p = true)
    (x : Ptr) (c : Char) (prev : Ptr) (hprev : prev <:+ x)
    (hJ : WalkInv S x c prev) (hno : S (suffixLinkSpec S prev ++ [c]) = false) :
    WalkInv S x c (suffixLinkSpec S prev) := by
  intro y hy hyx hyc
  have hlt := hJ y hy hyx hyc
  have hy' : y <:+ prev :=
    List.suffix_of_suffix_length_le hy hprev (Nat.le_of_lt hlt)
  have h1 : y <:+ suffixLinkSpec S prev :=
    longestSuffix_max S prev.tail y (suffix_tail_of_lt y prev hy' hlt) (hpre y [c] hyc)
  rcases Nat.lt_or_ge y.length (suffixLinkSpec S prev).length with h | h
  · exact h
  · have := h1.eq_of_length_le h
    rw [this, hno] at hyc
    exact absurd hyc (by simp)

/-- The walk stops with success: the suffix link of `prev` can be extended by `c`. -/
theorem suffixLinkSpec_snoc_found (S : Ptr → Bool) (h0 : S [] = true)
    (hpre : ∀ p r, S (p ++ r) = true → S p = true)
    (x : Ptr) (c : Char) (prev : Ptr) (hprev : prev <:+ x) (hne : prev ≠ [])
    (hJ : WalkInv S x c prev) (hyes : S (suffixLinkSpec S prev ++ [c]) = true) :
    suffixLinkSpec S (x ++ [c]) = suffixLinkSpec S prev ++ [c] := by
  have hx : x ≠ [] := by
    intro e; subst e
    exact hne (List.suffix_nil.1 hprev)
  unfold suffixLinkSpec at *
  rw [List.tail_append_of_ne_nil hx]
  have hsx : longestSuffix S prev.tail <:+ x.tail := by
    refine suffix_tail_of_lt _ _ ((longestSuffix_suffix S prev.tail).trans
      ((List.tail_suffix prev).trans hprev)) ?_
    exact Nat.lt_of_lt_of_le (length_lt_of_suffix_tail _ prev hne (longestSuffix_suffix S _))
      hprev.length_le
  apply longestSuffix_eq S h0
  · exact List.suffix_concat_iff.2 (Or.inr ⟨_, rfl, hsx⟩)
  · exact hyes
  · intro z hz hSz
    rcases List.suffix_concat_iff.1 hz with e | ⟨y, e, hy⟩
    · simp [e]
    · subst e
      have hlt := hJ y (suffix_of_suffix_tail y x hy) (length_lt_of_suffix_tail y x hx hy) hSz
      have hy' : y <:+ prev :=
        List.suffix_of_suffix_length_le (suffix_of_suffix_tail y x hy) hprev (Nat.le_of_lt hlt)
      have h1 : y <:+ longestSuffix S prev.tail :=
        longestSuffix_max S prev.tail y (suffix_tail_of_lt y prev hy' hlt) (hpre y [c] hSz)
      have := h1.length_le
      simp only [List.length_append, List.length_singleton]
      omega

/-- The walk stops at the root without success. -/
theorem suffixLinkSpec_snoc_none (S : Ptr → Bool) (h0 : S [] = true)
    (x : Ptr) (c : Char) (hJ : WalkInv S x c []) :
    suffixLinkSpec S (x ++ [c]) = [] := by
  unfold suffixLinkSpec
  cases x with
  | nil => simp [longestSuffix]
  | cons d x =>
    simp only [List.cons_append, List.tail_cons]
    apply longestSuffix_eq S h0
    · exact List.nil_suffix
    · exact h0
    · intro z hz hSz
      rcases List.suffix_concat_iff.1 hz with e | ⟨y, e, hy⟩
      · simp [e]
      · subst e
        have := hJ y (hy.trans (List.suffix_cons d x))
          (Nat.lt_of_le_of_lt hy.length_le (by simp)) hSz
        simp at this

/-! ## The specification functions -/

theorem nestedCountAux_fuel (S T : Ptr → Bool) (f1 f2 : Nat) (p : Ptr)
    (h1 : p.length < f1) (h2 : p.length < f2) :
    nestedCountAux S T f1 p = nestedCountAux S T f2 p := by
  induction f1 generalizing f2 p with
  | zero => omega
  | succ f1 ih =>
    cases f2 with
    | zero => omega
    | succ f2 =>
      simp only [nestedCountAux]
      by_cases hp : p = []
      · simp [hp]
      · simp only [hp, if_false]
        have hl := suffixLinkSpec_length_lt S p hp
        have hd : p.dropLast.length < p.length := by
          rw [List.length_dropLast]
          have : p.length ≠ 0 := fun e => hp (List.length_eq_zero.1 e)
          omega
        rw [ih f2 p.dropLast (by omega) (by omega),
          ih f2 (suffixLinkSpec S p) (by omega) (by omega)]

theorem nestedCount_nil (S T : Ptr → Bool) : nestedCount S T [] = 0 := by
  simp [nestedCount, nestedCountAux]

theorem nestedCountAux_eq (S T : Ptr → Bool) (f : Nat) (p : Ptr) (h : p.length < f) :
    nestedCountAux S T f p = nestedCount S T p :=
  nestedCountAux_fuel S T f (p.length + 1) p h (Nat.lt_succ_self _)

/-- The recurrence that defines the counter of a node below the root. -/
theorem nestedCount_snoc (S T : Ptr → Bool) (x : Ptr) (c : Char) :
    nestedCount S T (x ++ [c]) =
      max (nestedCount S T x) (nestedCount S T (suffixLinkSpec S (x ++ [c])))
        + (if T (x ++ [c]) then 1 else 0) := by
  have hp : x ++ [c] ≠ [] := by simp
  have hl := suffixLinkSpec_length_lt S (x ++ [c]) hp
  conv_lhs => unfold nestedCount
  rw [nestedCountAux]
  simp only [hp, if_false, List.dropLast_concat]
  rw [nestedCountAux_eq S T _ x (by simp), nestedCountAux_eq S T _ _ hl]

theorem terminalLinkSpec_fuel (S T : Ptr → Bool) (f1 f2 : Nat) (p : Ptr)
    (h1 : p.length < f1) (h2 : p.length < f2) :
    terminalLinkSpec S T f1 p = terminalLinkSpec S T f2 p := by
  induction f1 generalizing f2 p with
  | zero => omega
  | succ f1 ih =>
    cases f2 with
    | zero => omega
    | succ f2 =>
      simp only [terminalLinkSpec]
      by_cases hp : p = []
      · simp [hp]
      · simp only [hp, if_false]
        have hl := suffixLinkSpec_length_lt S p hp
        rw [ih f2 (suffixLinkSpec S p) (by omega) (by omega)]

theorem terminalLinkSpec_snoc (S T : Ptr → Bool) (x : Ptr) (c : Char) :
    terminalLinkSpec S T ((x ++ [c]).length + 1) (x ++ [c]) =
      if T (suffixLinkSpec S (x ++ [c])) then some (suffixLinkSpec S (x ++ [c]))
      else terminalLinkSpec S T ((suffixLinkSpec S (x ++ [c])).length + 1)
        (suffixLinkSpec S (x ++ [c])) := by
  have hp : x ++ [c] ≠ [] := by simp
  have hl := suffixLinkSpec_length_lt S (x ++ [c]) hp
  rw [terminalLinkSpec]
  simp only [hp, if_false]
  rw [terminalLinkSpec_fuel S T (x ++ [c]).length ((suffixLinkSpec S (x ++ [c])).length + 1) _
    hl (by omega)]

/-! ## Valid locations -/

theorem validB_nil (t : AhoCorasickNode) : validB t [] = true := rfl

theorem validB_of_append (t : AhoCorasickNode) (p r : Ptr) (h : validB t (p ++ r) = true) :
    validB t p = true := by
  unfold validB at *
  rw [deref_append] at h
  cases hd : deref t p with
  | none => simp [hd] at h
  | some n => rfl

theorem deref_of_validB (t : AhoCorasickNode) (p : Ptr) (h : validB t p = true) :
    ∃ n, deref t p = some n := by
  unfold validB at h
  cases hd : deref t p with
  | none => simp [hd] at h
  | some n => exact ⟨n, rfl⟩

theorem validB_snoc (t n : AhoCorasickNode) (p : Ptr) (c : Char) (hn : deref t p = some n) :
    validB t (p ++ [c]) = (mapFind n.trie_transitions_ c).isSome := by
  unfold validB
  rw [deref_snoc, hn]
  rfl

theorem terminalB_of_deref (t n : AhoCorasickNode) (p : Ptr) (hn : deref t p = some n) :
    terminalB t p = (n.is_terminal != 0) := by
  unfold terminalB
  rw [hn]

/-! ## The suffix-link walk -/

/-- The walk of `CalculateLinks` finds the longest proper suffix of the child's path that is a
path of the trie, provided the nodes that are not deeper than the current node are resolved. -/
theorem walk_spec (t : AhoCorasickNode) (x : Ptr) (c : Char)
    (hres : ∀ q, validB t q = true → q.length ≤ x.length → Resolved t q) :
    ∀ fuel prev, validB t prev = true → prev <:+ x → prev.length < fuel →
      WalkInv (validB t) x c prev →
      ∃ prev1 found, CalculateLinks.walk t c fuel prev = some (prev1, found) ∧
        validB t prev1 = true ∧ prev1.length ≤ x.length ∧
        ((prev1 = [] ∧ found = none ∧ suffixLinkSpec (validB t) (x ++ [c]) = []) ∨
         (prev1 ≠ [] ∧ found = some (suffixLinkSpec (validB t) (x ++ [c])))) := by
  intro fuel
  induction fuel with
  | zero => intro prev _ _ h; omega
  | succ fuel ih =>
    intro prev hv hsuf hlen hJ
    obtain ⟨p, hp, hsl, -, -⟩ := hres prev hv hsuf.length_le
    rw [CalculateLinks.walk]
    simp only [hp]
    by_cases hnil : prev = []
    · subst hnil
      simp only [linkSpec, if_true] at hsl
      simp only [hsl]
      exact ⟨[], none, rfl, rfl, Nat.zero_le _,
        Or.inl ⟨rfl, rfl, suffixLinkSpec_snoc_none _ (validB_nil t) x c hJ⟩⟩
    · simp only [linkSpec, hnil, if_false] at hsl
      simp only [hsl]
      have hslv := suffixLinkSpec_mem (validB t) (validB_nil t) prev
      obtain ⟨s, hs⟩ := deref_of_validB t _ hslv
      simp only [hs]
      have hvs := validB_snoc t s _ c hs
      cases hf : mapFind s.trie_transitions_ c with
      | none =>
        simp only
        rw [hf] at hvs
        have hlt := suffixLinkSpec_length_lt (validB t) prev hnil
        exact ih _ hslv (((suffixLinkSpec_suffix _ prev).trans (List.tail_suffix prev)).trans hsuf)
          (by omega) (WalkInv_step _ (validB_of_append t) x c prev hsuf hJ (by simpa using hvs))
      | some k =>
        simp only
        rw [hf] at hvs
        refine ⟨prev, _, rfl, hv, hsuf.length_le, Or.inr ⟨hnil, ?_⟩⟩
        rw [suffixLinkSpec_snoc_found _ (validB_nil t) (validB_of_append t) x c prev hsuf hnil hJ
          (by simpa using hvs)]

/-! ## The body of the `for` loop -/

theorem mapModify_mapModify {β : Type} (m : List (Char × β)) (c : Char) (f g : β → β) :
    mapModify (mapModify m c f) c g = mapModify m c (fun k => g (f k)) := by
  induction m with
  | nil => rfl
  | cons kv rest ih =>
    obtain ⟨k, w⟩ := kv
    by_cases h : k = c
    · simp [mapModify, h]
    · simp [mapModify, h, ih]

/-- Two writes through the same pointer amount to one. -/
theorem modify_modify (f g : AhoCorasickNode → AhoCorasickNode) (t : AhoCorasickNode)
    (p : Ptr) : modify g (modify f t p) p = modify (fun n => g (f n)) t p := by
  induction p generalizing t with
  | nil => rfl
  | cons c p ih =>
    simp only [modify, mapModify_mapModify]
    congr 2
    funext k
    exact ih k

theorem deref_modify_other (f : AhoCorasickNode → AhoCorasickNode)
    (hf : ∀ n, (f n).trie_transitions_ = n.trie_transitions_)
    (t : AhoCorasickNode) (p q : Ptr) (hne : q ≠ p) (n : AhoCorasickNode)
    (hn : deref t q = some n) :
    ∃ m, deref (modify f t p) q = some m ∧ m.view = n.view := by
  have h := viewAt_modify_of_ne f hf t p q hne
  unfold viewAt at h
  rw [hn] at h
  cases hd : deref (modify f t p) q with
  | none => simp [hd] at h
  | some m =>
    refine ⟨m, rfl, ?_⟩
    simpa [hd] using h

theorem view_sl (m n : AhoCorasickNode) (h : m.view = n.view) :
    m.suffix_link_ = n.suffix_link_ := congrArg NodeView.sl h

theorem view_tl (m n : AhoCorasickNode) (h : m.view = n.view) :
    m.terminal_link_ = n.terminal_link_ := congrArg NodeView.tl h

theorem view_count (m n : AhoCorasickNode) (h : m.view = n.view) :
    m.count_of_nested_substrings = n.count_of_nested_substrings := congrArg NodeView.count h

theorem view_term (m n : AhoCorasickNode) (h : m.view = n.view) :
    m.is_terminal = n.is_terminal := congrArg NodeView.term h

theorem ne_snoc_of_length_le (q x : Ptr) (c : Char) (h : q.length ≤ x.length) :
    q ≠ x ++ [c] := by
  intro e
  rw [e] at h
  simp at h

theorem suffixLink_eq (t : AhoCorasickNode) (x : Ptr) (c : Char)
    (hx : validB t x = true)
    (hres : ∀ q, validB t q = true → q.length ≤ x.length → Resolved t q) :
    CalculateLinks.suffixLink t x c =
      some (modify
        (fun n => { n with suffix_link_ := some (suffixLinkSpec (validB t) (x ++ [c])) })
        t (x ++ [c])) := by
  obtain ⟨prev1, found, hw, hv1, hl1, hcase⟩ :=
    walk_spec t x c hres (x.length + 1) x hx (List.suffix_refl x) (Nat.lt_succ_self _)
      (WalkInv_start _ x c)
  obtain ⟨p1, hp1, hp1sl, -, -⟩ := hres prev1 hv1 hl1
  have hne1 : prev1 ≠ x ++ [c] := ne_snoc_of_length_le prev1 x c hl1
  unfold CalculateLinks.suffixLink
  simp only [hw]
  rcases hcase with ⟨h1, h2, h3⟩ | ⟨h1, h2⟩
  · subst h1 h2
    simp only [linkSpec, if_true] at hp1sl
    simp only [hp1, hp1sl, Option.isNone_none, if_true, h3]
  · subst h2
    simp only [linkSpec, h1, if_false] at hp1sl
    obtain ⟨m, hm, hmv⟩ := deref_modify_other
      (fun n => { n with suffix_link_ := some (suffixLinkSpec (validB t) (x ++ [c])) })
      (fun _ => rfl) t (x ++ [c]) prev1 hne1 p1 hp1
    have := view_sl m p1 hmv
    simp only [hm, this, hp1sl, Option.isNone_some, if_false, Bool.false_eq_true]

theorem terminalLink_eq (r cn s : AhoCorasickNode) (child sl : Ptr)
    (hc : deref r child = some cn) (hsl : cn.suffix_link_ = some sl)
    (hs : deref r sl = some s) :
    CalculateLinks.terminalLink r child =
      some (modify
        (fun n => { n with terminal_link_ := if s.is_terminal = 0 then s.terminal_link_ else some sl })
        r child) := by
  unfold CalculateLinks.terminalLink
  simp only [hc, hsl, hs]
  split <;> rfl

theorem count_eq (r cn cur s : AhoCorasickNode) (x child sl : Ptr) (res : Nat)
    (hc : deref r child = some cn) (hsl : cn.suffix_link_ = some sl)
    (hcur : deref r x = some cur) (hs : deref r sl = some s) :
    CalculateLinks.count r x child res =
      some (modify
        (fun n =>
          { n with
            count_of_nested_substrings :=
              max cur.count_of_nested_substrings s.count_of_nested_substrings
                + (if cn.is_terminal ≠ 0 then 1 else 0) })
        r child,
        max res (max cur.count_of_nested_substrings s.count_of_nested_substrings
            + (if cn.is_terminal ≠ 0 then 1 else 0))) := by
  unfold CalculateLinks.count
  simp only [hc, hsl, hcur, hs]
  by_cases ht : cn.is_terminal = 0
  · simp only [ht, ne_eq, not_true_eq_false, if_false, deref_modify_self, hc, Option.map_some',
      Nat.add_zero]
    congr 2
    split <;> omega
  · simp only [ht, ne_eq, not_false_eq_true, if_true, modify_modify, deref_modify_self, hc,
      Option.map_some']
    congr 2
    split <;> omega
/-- The body of the `for` loop resolves the child: it writes the specified links and counter
into it and folds the counter into the running maximum. -/
theorem child_eq (t : AhoCorasickNode) (x : Ptr) (c : Char) (res : Nat)
    (hx : validB t x = true) (hc : validB t (x ++ [c]) = true)
    (hres : ∀ q, validB t q = true → q.length ≤ x.length → Resolved t q) :
    CalculateLinks.child t x c res =
      some (modify (resolveNode (validB t) (terminalB t) (x ++ [c])) t (x ++ [c]),
        max res (nestedCount (validB t) (terminalB t) (x ++ [c]))) := by
  obtain ⟨nc, hnc⟩ := deref_of_validB t _ hc
  have hslk_lt : (suffixLinkSpec (validB t) (x ++ [c])).length < (x ++ [c]).length :=
    suffixLinkSpec_length_lt (validB t) (x ++ [c]) (by simp)
  have hslk_le : (suffixLinkSpec (validB t) (x ++ [c])).length ≤ x.length := by
    simp only [List.length_append, List.length_singleton] at hslk_lt
    omega
  have hslk_v : validB t (suffixLinkSpec (validB t) (x ++ [c])) = true :=
    suffixLinkSpec_mem (validB t) (validB_nil t) _
  have hslk_ne := ne_snoc_of_length_le _ x c hslk_le
  have hx_ne : x ≠ x ++ [c] := ne_snoc_of_length_le x x c (Nat.le_refl _)
  obtain ⟨s, hs, -, hstl, hscnt⟩ := hres _ hslk_v hslk_le
  obtain ⟨cur, hcur, -, -, hcurcnt⟩ := hres x hx (Nat.le_refl _)
  have hTs := terminalB_of_deref t s _ hs
  have hTc := terminalB_of_deref t nc _ hnc
  unfold CalculateLinks.child
  rw [suffixLink_eq t x c hx hres]
  simp only
  -- the terminal link
  obtain ⟨s1, hs1, hs1v⟩ := deref_modify_other
    (fun n => { n with suffix_link_ := some (suffixLinkSpec (validB t) (x ++ [c])) })
    (fun _ => rfl) t (x ++ [c]) _ hslk_ne s hs
  rw [terminalLink_eq _ _ s1 (x ++ [c]) (suffixLinkSpec (validB t) (x ++ [c]))
    (by rw [deref_modify_self, hnc]; rfl) rfl hs1]
  simp only [modify_modify]
  -- the counter
  obtain ⟨s2, hs2, hs2v⟩ := deref_modify_other
    (fun n => { ({ n with suffix_link_ := some (suffixLinkSpec (validB t) (x ++ [c])) } :
        AhoCorasickNode) with
      terminal_link_ := if s1.is_terminal = 0 then s1.terminal_link_
        else some (suffixLinkSpec (validB t) (x ++ [c])) })
    (fun _ => rfl) t (x ++ [c]) _ hslk_ne s hs
  obtain ⟨cur2, hcur2, hcur2v⟩ := deref_modify_other
    (fun n => { ({ n with suffix_link_ := some (suffixLinkSpec (validB t) (x ++ [c])) } :
        AhoCorasickNode) with
      terminal_link_ := if s1.is_terminal = 0 then s1.terminal_link_
        else some (suffixLinkSpec (validB t) (x ++ [c])) })
    (fun _ => rfl) t (x ++ [c]) _ hx_ne cur hcur
  rw [count_eq _ _ cur2 s2 x (x ++ [c]) (suffixLinkSpec (validB t) (x ++ [c])) res
    (by rw [deref_modify_self, hnc]; rfl) rfl hcur2 hs2]
  simp only [modify_modify]
  have e1 : s1.is_terminal = s.is_terminal := view_term _ _ hs1v
  have e2 : s1.terminal_link_ = s.terminal_link_ := view_tl _ _ hs1v
  have e3 : s2.count_of_nested_substrings = s.count_of_nested_substrings := view_count _ _ hs2v
  have e4 : cur2.count_of_nested_substrings = cur.count_of_nested_substrings :=
    view_count _ _ hcur2v
  have hcnt : max cur2.count_of_nested_substrings s2.count_of_nested_substrings
      + (if nc.is_terminal ≠ 0 then 1 else 0)
      = nestedCount (validB t) (terminalB t) (x ++ [c]) := by
    rw [nestedCount_snoc, e3, e4, hscnt, hcurcnt, hTc]
    by_cases h : nc.is_terminal = 0 <;> simp [h]
  have htl : (if s1.is_terminal = 0 then s1.terminal_link_
      else some (suffixLinkSpec (validB t) (x ++ [c])))
      = terminalLinkSpec (validB t) (terminalB t) ((x ++ [c]).length + 1) (x ++ [c]) := by
    rw [terminalLinkSpec_snoc, e1, e2, hstl, hTs]
    by_cases h : s.is_terminal = 0 <;> simp [h]
  simp only [hcnt, htl]
  rfl
/-! ## The `for` loop over the children -/

theorem resolveNode_kids (S T : Ptr → Bool) (p : Ptr) (n : AhoCorasickNode) :
    (resolveNode S T p n).trie_transitions_ = n.trie_transitions_ := rfl

theorem Resolved_of_viewAt (t t1 : AhoCorasickNode) (q : Ptr)
    (hv : validB t1 = validB t) (hT : terminalB t1 = terminalB t)
    (hview : viewAt t1 q = viewAt t q) (h : Resolved t q) : Resolved t1 q := by
  obtain ⟨n, hn, h1, h2, h3⟩ := h
  unfold viewAt at hview
  rw [hn] at hview
  cases hd : deref t1 q with
  | none => simp [hd] at hview
  | some m =>
    have hmv : m.view = n.view := by simpa [hd] using hview
    refine ⟨m, hd, ?_, ?_, ?_⟩
    · rw [hv, view_sl m n hmv, h1]
    · rw [hv, hT, view_tl m n hmv, h2]
    · rw [hv, hT, view_count m n hmv, h3]

theorem Resolved_resolve_self (t : AhoCorasickNode) (x : Ptr) (c : Char)
    (hc : validB t (x ++ [c]) = true) :
    Resolved (modify (resolveNode (validB t) (terminalB t) (x ++ [c])) t (x ++ [c]))
      (x ++ [c]) := by
  obtain ⟨nc, hnc⟩ := deref_of_validB t _ hc
  refine ⟨resolveNode (validB t) (terminalB t) (x ++ [c]) nc, ?_, ?_, ?_, ?_⟩
  · rw [deref_modify_self, hnc]; rfl
  · rw [validB_modify _ (resolveNode_kids _ _ _)]
    simp [resolveNode, linkSpec]
  · rw [validB_modify _ (resolveNode_kids _ _ _),
      terminalB_modify _ (resolveNode_kids _ _ _) (fun _ => rfl)]
    rfl
  · rw [validB_modify _ (resolveNode_kids _ _ _),
      terminalB_modify _ (resolveNode_kids _ _ _) (fun _ => rfl)]
    rfl

theorem Resolved_resolve (t : AhoCorasickNode) (x : Ptr) (c : Char)
    (hc : validB t (x ++ [c]) = true) (q : Ptr) (h : Resolved t q) :
    Resolved (modify (resolveNode (validB t) (terminalB t) (x ++ [c])) t (x ++ [c])) q := by
  by_cases hq : q = x ++ [c]
  · subst hq
    exact Resolved_resolve_self t x c hc
  · exact Resolved_of_viewAt t _ q (validB_modify _ (resolveNode_kids _ _ _) t _)
      (terminalB_modify _ (resolveNode_kids _ _ _) (fun _ => rfl) t _)
      (viewAt_modify_of_ne _ (resolveNode_kids _ _ _) t _ q hq) h

theorem TrieWF_modify (f : AhoCorasickNode → AhoCorasickNode)
    (hf : ∀ n, (f n).trie_transitions_ = n.trie_transitions_)
    (hcache : ∀ n, (f n).automaton_transitions_cache_ = n.automaton_transitions_cache_)
    (t : AhoCorasickNode) (p : Ptr) (hwf : TrieWF t) : TrieWF (modify f t p) := by
  rw [TrieWF_iff] at hwf ⊢
  intro q v hv
  by_cases h : q = p
  · subst h
    rw [viewAt_modify_self] at hv
    cases hd : deref t q with
    | none => simp [hd] at hv
    | some n =>
      simp only [hd, Option.map_some', Option.some.injEq] at hv
      subst hv
      have := hwf q n.view (by simp [viewAt, hd])
      simp only [AhoCorasickNode.view, hf, hcache] at this ⊢
      exact this
  · rw [viewAt_modify_of_ne f hf t p q h] at hv
    exact hwf q v hv

/-- The `for` loop resolves every child of the current node and pushes it. -/
theorem children_spec (x : Ptr) (ks : List Char) :
    ∀ (t : AhoCorasickNode) (queue : List Ptr) (res : Nat),
      validB t x = true → (∀ c ∈ ks, validB t (x ++ [c]) = true) →
      (∀ q, validB t q = true → q.length ≤ x.length → Resolved t q) → TrieWF t →
      ∃ t1 res1, CalculateLinks.children x ks t queue res =
          some (t1, queue ++ ks.map (fun c => x ++ [c]), res1) ∧
        validB t1 = validB t ∧ terminalB t1 = terminalB t ∧
        (∀ q, sizeAt t1 q = sizeAt t q) ∧ TrieWF t1 ∧
        (∀ q, Resolved t q → Resolved t1 q) ∧
        (∀ c ∈ ks, Resolved t1 (x ++ [c])) ∧
        res ≤ res1 ∧
        (∀ c ∈ ks, nestedCount (validB t) (terminalB t) (x ++ [c]) ≤ res1) ∧
        (res1 = res ∨ ∃ c ∈ ks, nestedCount (validB t) (terminalB t) (x ++ [c]) = res1) := by
  induction ks with
  | nil =>
    intro t queue res _ _ _ hwf
    exact ⟨t, res, by simp [CalculateLinks.children], rfl, rfl, fun _ => rfl, hwf,
      fun _ h => h, by simp, Nat.le_refl _, by simp, Or.inl rfl⟩
  | cons c ks ih =>
    intro t queue res hx hks hres hwf
    have hc : validB t (x ++ [c]) = true := hks c (List.mem_cons_self _ _)
    have hv1 := validB_modify _ (resolveNode_kids (validB t) (terminalB t) (x ++ [c])) t (x ++ [c])
    have hT1 := terminalB_modify _ (resolveNode_kids (validB t) (terminalB t) (x ++ [c]))
      (fun _ => rfl) t (x ++ [c])
    obtain ⟨t2, res2, he, i1, i2, i3, i4, i5, i6, i7, i8, i9⟩ :=
      ih (modify (resolveNode (validB t) (terminalB t) (x ++ [c])) t (x ++ [c]))
        (queue ++ [x ++ [c]]) (max res (nestedCount (validB t) (terminalB t) (x ++ [c])))
        (by rw [hv1]; exact hx)
        (fun d hd => by rw [hv1]; exact hks d (List.mem_cons_of_mem _ hd))
        (fun q hq hl => Resolved_resolve t x c hc q (hres q (by rw [hv1] at hq; exact hq) hl))
        (TrieWF_modify _ (resolveNode_kids _ _ _) (fun _ => rfl) t _ hwf)
    rw [hv1, hT1] at i8 i9
    refine ⟨t2, res2, ?_, i1.trans hv1, i2.trans hT1, ?_, i4, ?_, ?_, ?_, ?_, ?_⟩
    · rw [CalculateLinks.children, child_eq t x c res hx hc hres]
      simp only [he, List.map_cons, List.append_assoc, List.singleton_append]
    · intro q
      rw [i3 q, sizeAt_modify _ (resolveNode_kids _ _ _)]
    · intro q hq
      exact i5 q (Resolved_resolve t x c hc q hq)
    · intro d hd
      rcases List.mem_cons.1 hd with e | e
      · subst e
        exact i5 _ (Resolved_resolve_self t x d hc)
      · exact i6 d e
    · exact Nat.le_trans (Nat.le_max_left _ _) i7
    · intro d hd
      rcases List.mem_cons.1 hd with e | e
      · subst e
        exact Nat.le_trans (Nat.le_max_right _ _) i7
      · exact i8 d e
    · rcases i9 with e | ⟨d, hd, e⟩
      · rcases Nat.le_total res (nestedCount (validB t) (terminalB t) (x ++ [c])) with h | h
        · right
          exact ⟨c, List.mem_cons_self _ _, by rw [e, Nat.max_eq_right h]⟩
        · left
          rw [e, Nat.max_eq_left h]
      · exact Or.inr ⟨d, List.mem_cons_of_mem _ hd, e⟩
/-! ## The `while` loop -/

theorem sizeAt_eq_sum (t n : AhoCorasickNode) (x : Ptr) (hn : deref t x = some n)
    (hnd : (n.trie_transitions_.map Prod.fst).Nodup) :
    sizeAt t x = 1 + (((n.trie_transitions_.map Prod.fst).map (fun c => x ++ [c])).map
      (sizeAt t)).sum := by
  have h1 : sizeAt t x = n.size := by
    unfold sizeAt; rw [hn]
  rw [h1, size_eq, sizeKids_eq_sum _ hnd, List.map_map (l := List.map Prod.fst n.trie_transitions_)]
  congr 2
  apply List.map_congr_left
  intro c _
  simp only [Function.comp, sizeAt, deref_snoc, hn, Option.some_bind]

theorem proper_prefix_length (a q : Ptr) (h : a <+: q) (hne : a ≠ q) : a.length < q.length := by
  rcases Nat.lt_or_ge a.length q.length with h1 | h1
  · exact h1
  · exact absurd (h.eq_of_length_le h1) hne

/-- One round of the `while` loop keeps the invariant and takes one node off the work left. -/
theorem loop_step (t : AhoCorasickNode) (x : Ptr) (rest : List Ptr) (res : Nat)
    (inv : LoopInv t (x :: rest) res) :
    ∃ n t1 res1, deref t x = some n ∧
      CalculateLinks.children x (n.trie_transitions_.map Prod.fst) t rest res =
        some (t1, rest ++ (n.trie_transitions_.map Prod.fst).map (fun c => x ++ [c]), res1) ∧
      LoopInv t1 (rest ++ (n.trie_transitions_.map Prod.fst).map (fun c => x ++ [c])) res1 ∧
      validB t1 = validB t ∧ terminalB t1 = terminalB t ∧
      ((rest ++ (n.trie_transitions_.map Prod.fst).map (fun c => x ++ [c])).map
        (sizeAt t1)).sum + 1 = (((x :: rest).map (sizeAt t)).sum) := by
  have hx : validB t x = true := inv.valid x (List.mem_cons_self _ _)
  obtain ⟨n, hn⟩ := deref_of_validB t x hx
  have hkeys : ∀ c, c ∈ n.trie_transitions_.map Prod.fst ↔ validB t (x ++ [c]) = true := by
    intro c
    rw [validB_snoc t n x c hn, mapFind_isSome_iff]
  have hsorted := List.pairwise_cons.1 inv.sorted
  have hlow : ∀ a ∈ rest, x.length ≤ a.length := hsorted.1
  have hhigh : ∀ a ∈ rest, a.length ≤ x.length + 1 := fun a ha =>
    inv.spread x (List.mem_cons_self _ _) a (List.mem_cons_of_mem _ ha)
  have hres : ∀ q, validB t q = true → q.length ≤ x.length → Resolved t q := by
    intro q hq hl
    by_cases hq0 : q = []
    · subst hq0; exact inv.root
    · rcases inv.cover q hq hq0 with h | ⟨a, ha, hpre, hne⟩
      · exact h.1
      · exfalso
        have h1 := proper_prefix_length a q hpre hne
        rcases List.mem_cons.1 ha with e | e
        · subst e; omega
        · have := hlow a e; omega
  obtain ⟨t1, res1, he, i1, i2, i3, i4, i5, i6, i7, i8, i9⟩ :=
    children_spec x (n.trie_transitions_.map Prod.fst) t rest res hx
      (fun c hc => (hkeys c).1 hc) hres inv.wf
  refine ⟨n, t1, res1, hn, he, ?_, i1, i2, ?_⟩
  · constructor
    · exact i4
    · intro q hq
      rw [i1]
      rcases List.mem_append.1 hq with h | h
      · exact inv.valid q (List.mem_cons_of_mem _ h)
      · obtain ⟨c, hc, rfl⟩ := List.mem_map.1 h
        exact (hkeys c).1 hc
    · rw [List.pairwise_append]
      refine ⟨hsorted.2, ?_, ?_⟩
      · rw [List.pairwise_map]
        exact List.pairwise_of_forall (fun _ _ => by simp)
      · intro a ha b hb
        obtain ⟨c, _, rfl⟩ := List.mem_map.1 hb
        have := hhigh a ha
        simpa using this
    · have hrange : ∀ a ∈ rest ++ (n.trie_transitions_.map Prod.fst).map (fun c => x ++ [c]),
          x.length ≤ a.length ∧ a.length ≤ x.length + 1 := by
        intro a ha
        rcases List.mem_append.1 ha with h | h
        · exact ⟨hlow a h, hhigh a h⟩
        · obtain ⟨c, _, rfl⟩ := List.mem_map.1 h
          simp
      intro a ha b hb
      have h1 := hrange a ha
      have h2 := hrange b hb
      omega
    · intro q hq
      rcases List.mem_append.1 hq with h | h
      · exact i5 q (inv.resolved q (List.mem_cons_of_mem _ h))
      · obtain ⟨c, hc, rfl⟩ := List.mem_map.1 h
        exact i6 c hc
    · exact i5 [] inv.root
    · intro q hq hq0
      rw [i1] at hq
      rw [i1, i2]
      rcases inv.cover q hq hq0 with h | ⟨a, ha, hpre, hne⟩
      · exact Or.inl ⟨i5 q h.1, Nat.le_trans h.2 i7⟩
      · rcases List.mem_cons.1 ha with e | e
        · subst e
          obtain ⟨r, rfl⟩ := hpre
          cases r with
          | nil => simp at hne
          | cons c r =>
            have hvc : validB t (a ++ [c]) = true := by
              apply validB_of_append t (a ++ [c]) r
              simpa using hq
            have hc := (hkeys c).2 hvc
            cases r with
            | nil => exact Or.inl ⟨i6 c hc, i8 c hc⟩
            | cons d r =>
              right
              refine ⟨a ++ [c], List.mem_append_right _ (List.mem_map.2 ⟨c, hc, rfl⟩), ?_, ?_⟩
              · exact ⟨d :: r, by simp⟩
              · intro e
                have := congrArg List.length e
                simp at this
        · exact Or.inr ⟨a, List.mem_append_left _ e, hpre, hne⟩
    · rw [i1, i2]
      rcases i9 with e | ⟨c, hc, e⟩
      · rw [e]; exact inv.witness
      · exact Or.inr ⟨x ++ [c], (hkeys c).1 hc, by simp, e⟩
  · have hsz : sizeAt t1 = sizeAt t := funext i3
    rw [hsz, List.map_append, List.sum_append, List.map_cons, List.sum_cons,
      sizeAt_eq_sum t n x hn (inv.wf x n hn).1]
    omega

/-- The `while` loop ends, with every node resolved and `res` the maximum of the counters of
the nodes below the root. -/
theorem loop_spec : ∀ (fuel : Nat) (t : AhoCorasickNode) (queue : List Ptr) (res : Nat),
    LoopInv t queue res → (queue.map (sizeAt t)).sum < fuel →
    ∃ t1 res1, CalculateLinks.loop fuel t queue res = some (t1, res1) ∧
      LoopInv t1 [] res1 ∧ validB t1 = validB t ∧ terminalB t1 = terminalB t := by
  intro fuel
  induction fuel with
  | zero => intro t queue res _ h; omega
  | succ fuel ih =>
    intro t queue res inv hm
    cases queue with
    | nil => exact ⟨t, res, by simp [CalculateLinks.loop], inv, rfl, rfl⟩
    | cons x rest =>
      obtain ⟨n, t1, res1, hn, he, inv1, hv1, hT1, hsz⟩ := loop_step t x rest res inv
      obtain ⟨t2, res2, he2, inv2, hv2, hT2⟩ := ih t1 _ res1 inv1 (by omega)
      refine ⟨t2, res2, ?_, inv2, hv2.trans hv1, hT2.trans hT1⟩
      rw [CalculateLinks.loop]
      simp only [hn, he, he2]
/-! ## `CalculateLinks` and `Build` -/

theorem LoopInv_start (t : AhoCorasickNode) (hwf : TrieWF t)
    (hcount : t.count_of_nested_substrings = 0) :
    LoopInv (modify (fun n => { n with suffix_link_ := none, terminal_link_ := none }) t [])
      [[]] 0 := by
  constructor
  · exact TrieWF_modify (fun n => { n with suffix_link_ := none, terminal_link_ := none })
      (fun _ => rfl) (fun _ => rfl) t [] hwf
  · intro q hq
    simp only [List.mem_singleton] at hq
    subst hq; rfl
  · simp
  · intro a ha b hb
    simp only [List.mem_singleton] at ha hb
    subst ha hb; simp
  · intro q hq
    simp only [List.mem_singleton] at hq
    subst hq
    exact ⟨_, rfl, by simp [modify, linkSpec], by simp [modify, terminalLinkSpec],
      by simp [modify, nestedCount_nil, hcount]⟩
  · exact ⟨_, rfl, by simp [modify, linkSpec], by simp [modify, terminalLinkSpec],
      by simp [modify, nestedCount_nil, hcount]⟩
  · intro q _ hq0
    exact Or.inr ⟨[], List.mem_singleton_self _, List.nil_prefix, fun e => hq0 e.symm⟩
  · exact Or.inl rfl

/-- `CalculateLinks` returns: every node of the trie ends up resolved, and the returned number
is the maximum of the specified counters over the nodes below the root (zero when the root is
the only node). -/
theorem CalculateLinks_spec (t : AhoCorasickNode) (hwf : TrieWF t)
    (hcount : t.count_of_nested_substrings = 0) :
    ∃ t1 res, CalculateLinks t = some (t1, res) ∧
      validB t1 = validB t ∧ terminalB t1 = terminalB t ∧ TrieWF t1 ∧
      (∀ q, validB t q = true → Resolved t1 q) ∧
      (∀ q, validB t q = true → q ≠ [] → nestedCount (validB t) (terminalB t) q ≤ res) ∧
      (res = 0 ∨ ∃ q, validB t q = true ∧ q ≠ [] ∧
        nestedCount (validB t) (terminalB t) q = res) := by
  have hv0 := validB_modify (fun n => { n with suffix_link_ := none, terminal_link_ := none })
    (fun _ => rfl) t []
  have hT0 := terminalB_modify (fun n => { n with suffix_link_ := none, terminal_link_ := none })
    (fun _ => rfl) (fun _ => rfl) t []
  obtain ⟨t1, res, he, inv, hv, hT⟩ := loop_spec (t.size + 1) _ [[]] 0
    (LoopInv_start t hwf hcount)
    (by
      have := sizeAt_modify (fun n => { n with suffix_link_ := none, terminal_link_ := none })
        (fun _ => rfl) t [] []
      simp only [List.map_cons, List.map_nil, List.sum_cons, List.sum_nil, this]
      simp [sizeAt, deref])
  have hv' := hv.trans hv0
  have hT' := hT.trans hT0
  refine ⟨t1, res, he, hv', hT', inv.wf, ?_, ?_, ?_⟩
  · intro q hq
    by_cases hq0 : q = []
    · subst hq0; exact inv.root
    · rcases inv.cover q (by rw [hv']; exact hq) hq0 with h | ⟨a, ha, _⟩
      · exact h.1
      · simp at ha
  · intro q hq hq0
    rcases inv.cover q (by rw [hv']; exact hq) hq0 with h | ⟨a, ha, _⟩
    · rw [← hv', ← hT']; exact h.2
    · simp at ha
  · rw [← hv', ← hT']
    exact inv.witness
/-! ## What the counter counts -/

theorem ptr_nil_or_snoc (p : Ptr) : p = [] ∨ ∃ x c, p = x ++ [c] := by
  rcases List.eq_nil_or_concat p with h | ⟨x, c, h⟩
  · exact Or.inl h
  · exact Or.inr ⟨x, c, by simpa using h⟩

theorem nestedCount_parent_le (S T : Ptr → Bool) (x : Ptr) (c : Char) :
    nestedCount S T x ≤ nestedCount S T (x ++ [c]) := by
  rw [nestedCount_snoc]
  exact Nat.le_trans (Nat.le_max_left _ _) (Nat.le_add_right _ _)

theorem nestedCount_link_le (S T : Ptr → Bool) (x : Ptr) (c : Char) :
    nestedCount S T (suffixLinkSpec S (x ++ [c])) ≤ nestedCount S T (x ++ [c]) := by
  conv_rhs => rw [nestedCount_snoc]
  exact Nat.le_trans (Nat.le_max_right _ _) (Nat.le_add_right _ _)

theorem nestedCount_prefix_le (S T : Ptr → Bool) (q r : Ptr) :
    nestedCount S T q ≤ nestedCount S T (q ++ r) := by
  induction r using List.reverseRecOn with
  | nil => simp
  | append_singleton r c ih =>
    rw [← List.append_assoc]
    exact Nat.le_trans ih (nestedCount_parent_le S T (q ++ r) c)

theorem nestedCount_suffix_le (S T : Ptr → Bool) :
    ∀ (n : Nat) (p q : Ptr), p.length ≤ n → q <:+ p → S q = true →
      nestedCount S T q ≤ nestedCount S T p := by
  intro n
  induction n with
  | zero =>
    intro p q hp hq _
    have : p = [] := List.length_eq_zero.1 (Nat.le_zero.1 hp)
    subst this
    rw [List.suffix_nil.1 hq]
  | succ n ih =>
    intro p q hp hq hS
    rcases Nat.lt_or_ge q.length p.length with hlt | hge
    · rcases ptr_nil_or_snoc p with h | ⟨x, c, h⟩
      · subst h; simp at hlt
      · subst h
        have h1 : q <:+ suffixLinkSpec S (x ++ [c]) :=
          longestSuffix_max S _ q (suffix_tail_of_lt q _ hq hlt) hS
        have h2 := suffixLinkSpec_length_lt S (x ++ [c]) (by simp)
        exact Nat.le_trans (ih _ q (by omega) h1 hS) (nestedCount_link_le S T x c)
    · rw [hq.eq_of_length_le hge]

theorem nestedCount_infix_le (S T : Ptr → Bool) (p q : Ptr) (hq : q <:+: p) (hSq : S q = true) :
    nestedCount S T q ≤ nestedCount S T p := by
  obtain ⟨a, b, rfl⟩ := hq
  exact Nat.le_trans
    (nestedCount_suffix_le S T _ (a ++ q) q (Nat.le_refl _) (List.suffix_append a q) hSq)
    (nestedCount_prefix_le S T (a ++ q) b)

/-- A pattern counts one more than every other pattern it contains. -/
theorem nestedCount_infix_lt (S T : Ptr → Bool) (p q : Ptr) (hq : q <:+: p) (hne : q ≠ p) (hSq : S q = true) (hTp : T p = true) :
    nestedCount S T q + 1 ≤ nestedCount S T p := by
  rcases ptr_nil_or_snoc p with h | ⟨x, c, h⟩
  · subst h
    exact absurd (List.infix_nil.1 hq) hne
  · subst h
    rw [nestedCount_snoc, hTp]
    simp only [if_true, Nat.add_le_add_iff_right]
    rcases List.infix_concat_iff.1 hq with h1 | h1
    · have hlt : q.length < (x ++ [c]).length := by
        rcases Nat.lt_or_ge q.length (x ++ [c]).length with h | h
        · exact h
        · exact absurd (h1.eq_of_length_le h) hne
      have h2 : q <:+ suffixLinkSpec S (x ++ [c]) :=
        longestSuffix_max S _ q (suffix_tail_of_lt q _ h1 hlt) hSq
      exact Nat.le_trans (nestedCount_suffix_le S T _ _ q (Nat.le_refl _) h2 hSq)
        (Nat.le_max_right _ _)
    · exact Nat.le_trans (nestedCount_infix_le S T x q h1 hSq) (Nat.le_max_left _ _)

theorem nestedCount_pos (S T : Ptr → Bool) (p : Ptr) (hp : p ≠ []) (hT : T p = true) :
    1 ≤ nestedCount S T p := by
  rcases ptr_nil_or_snoc p with h | ⟨x, c, h⟩
  · exact absurd h hp
  · subst h
    rw [nestedCount_snoc, hT]
    simp

/-- A chain of nested patterns is not longer than the counter of one of its members. -/
theorem chain_le_nestedCount (S T : Ptr → Bool)
    (hTS : ∀ p, T p = true → S p = true) :
    ∀ (rest : List (List Char)) (a : List Char) (m : Nat),
      (a :: rest).Nodup → (∀ z ∈ a :: rest, T z = true) →
      List.Chain' (fun u v => u <:+: v) (a :: rest) → m ≤ nestedCount S T a →
      ∃ q ∈ a :: rest, m + rest.length ≤ nestedCount S T q := by
  intro rest
  induction rest with
  | nil =>
    intro a m _ _ _ hm
    exact ⟨a, List.mem_cons_self _ _, by simpa using hm⟩
  | cons b rest ih =>
    intro a m hnd hT hch hm
    have hab : a ≠ b := by
      intro e
      have := (List.nodup_cons.1 hnd).1
      exact this (by rw [e]; exact List.mem_cons_self _ _)
    obtain ⟨hinf, hch'⟩ := List.chain'_cons.1 hch
    have hstep := nestedCount_infix_lt S T b a hinf hab
      (hTS a (hT a (List.mem_cons_self _ _)))
      (hT b (List.mem_cons_of_mem _ (List.mem_cons_self _ _)))
    obtain ⟨q, hq, hle⟩ := ih b (m + 1) (List.nodup_cons.1 hnd).2
      (fun z hz => hT z (List.mem_cons_of_mem _ hz)) hch' (by omega)
    refine ⟨q, List.mem_cons_of_mem _ hq, ?_⟩
    simp only [List.length_cons]
    omega

/-- Every node carries a chain of nested patterns inside its path, as long as its counter. -/
theorem exists_chain_of_nestedCount (S T : Ptr → Bool) (h0 : S [] = true)
    (hpre : ∀ p r, S (p ++ r) = true → S p = true) :
    ∀ (n : Nat) (p : Ptr), p.length ≤ n → S p = true →
      ∃ c : List (List Char), c.Nodup ∧ (∀ z ∈ c, T z = true ∧ z ≠ [] ∧ z <:+: p) ∧
        List.Chain' (fun u v => u <:+: v) c ∧ c.length = nestedCount S T p := by
  intro n
  induction n with
  | zero =>
    intro p hp _
    have : p = [] := List.length_eq_zero.1 (Nat.le_zero.1 hp)
    subst this
    exact ⟨[], List.nodup_nil, by simp, List.chain'_nil, by simp [nestedCount_nil]⟩
  | succ n ih =>
    intro p hp hS
    rcases ptr_nil_or_snoc p with h | ⟨x, c, h⟩
    · subst h
      exact ⟨[], List.nodup_nil, by simp, List.chain'_nil, by simp [nestedCount_nil]⟩
    · subst h
      simp only [List.length_append, List.length_singleton] at hp
      have hsl := suffixLinkSpec_length_lt S (x ++ [c]) (by simp)
      simp only [List.length_append, List.length_singleton] at hsl
      -- the node among parent and suffix link with the larger counter
      have hy : ∃ y : Ptr, y.length ≤ x.length ∧ S y = true ∧ y <:+: (x ++ [c]) ∧
          nestedCount S T y = max (nestedCount S T x)
            (nestedCount S T (suffixLinkSpec S (x ++ [c]))) := by
        rcases Nat.le_total (nestedCount S T x)
            (nestedCount S T (suffixLinkSpec S (x ++ [c]))) with h | h
        · exact ⟨suffixLinkSpec S (x ++ [c]), by omega, suffixLinkSpec_mem S h0 _,
            ((suffixLinkSpec_suffix S _).trans (List.tail_suffix _)).isInfix,
            (Nat.max_eq_right h).symm⟩
        · exact ⟨x, Nat.le_refl _, hpre x [c] hS, (List.prefix_append x [c]).isInfix,
            (Nat.max_eq_left h).symm⟩
      obtain ⟨y, hyl, hyS, hyi, hyc⟩ := hy
      obtain ⟨ch, hnd, hmem, hchain, hlen⟩ := ih y (by omega) hyS
      by_cases hT : T (x ++ [c]) = true
      · refine ⟨ch ++ [x ++ [c]], ?_, ?_, ?_, ?_⟩
        · rw [List.nodup_append]
          refine ⟨hnd, List.nodup_singleton _, ?_⟩
          intro z hz hz'
          simp only [List.mem_singleton] at hz'
          subst hz'
          have := (hmem _ hz).2.2.length_le
          simp only [List.length_append, List.length_singleton] at this
          omega
        · intro z hz
          rcases List.mem_append.1 hz with h | h
          · exact ⟨(hmem z h).1, (hmem z h).2.1, (hmem z h).2.2.trans hyi⟩
          · simp only [List.mem_singleton] at h
            subst h
            exact ⟨hT, by simp, List.infix_refl _⟩
        · apply List.Chain'.append hchain (List.chain'_singleton _)
          intro u hu v hv
          simp only [List.head?_cons, Option.mem_def, Option.some.injEq] at hv
          subst hv
          exact (hmem u (List.mem_of_getLast?_eq_some hu)).2.2.trans hyi
        · rw [nestedCount_snoc, hT]
          simp [hlen, hyc]
      · refine ⟨ch, hnd, fun z hz => ⟨(hmem z hz).1, (hmem z hz).2.1, (hmem z hz).2.2.trans hyi⟩,
          hchain, ?_⟩
        rw [nestedCount_snoc]
        simp [hT, hlen, hyc]
/-! ## The automaton and the answer of `Build` -/

theorem terminalB_validB (t : AhoCorasickNode) (p : Ptr) (h : terminalB t p = true) :
    validB t p = true := by
  unfold terminalB at h
  unfold validB
  cases hd : deref t p with
  | none => simp [hd] at h
  | some n => rfl

/-- The automaton `Build` constructs: all nodes are resolved, and the answer is the maximum of
the counters. -/
theorem automaton_spec (b : AhoCorasickBuilder) :
    ∃ t k, CalculateLinks b.trie = some (t, k) ∧
      validB t = validB b.trie ∧ terminalB t = terminalB b.trie ∧ TrieWF t ∧
      (∀ q, validB b.trie q = true → Resolved t q) ∧
      (∀ q, validB b.trie q = true → nestedCount (validB b.trie) (terminalB b.trie) q ≤ k) ∧
      (∃ q, validB b.trie q = true ∧ nestedCount (validB b.trie) (terminalB b.trie) q = k) := by
  obtain ⟨t, k, he, h1, h2, h3, h4, h5, h6⟩ :=
    CalculateLinks_spec b.trie (TrieWF_trie b) (count_trie b)
  refine ⟨t, k, he, h1, h2, h3, h4, ?_, ?_⟩
  · intro q hq
    by_cases hq0 : q = []
    · subst hq0; simp [nestedCount_nil]
    · exact h5 q hq hq0
  · rcases h6 with h | ⟨q, hq, _, hk⟩
    · exact ⟨[], rfl, by rw [nestedCount_nil, h]⟩
    · exact ⟨q, hq, hk⟩

/-- The counter of a node is the length of the longest chain of nested patterns inside the
path of the node. -/
theorem nestedCount_chain (b : AhoCorasickBuilder) (p : Ptr) (hp : validB b.trie p = true) :
    (∃ c, IsNestedChain b.strings_ c ∧ (∀ z ∈ c, z <:+: p) ∧
      c.length = nestedCount (validB b.trie) (terminalB b.trie) p) ∧
    (∀ c, IsNestedChain b.strings_ c → (∀ z ∈ c, z <:+: p) →
      c.length ≤ nestedCount (validB b.trie) (terminalB b.trie) p) := by
  constructor
  · obtain ⟨c, h1, h2, h3, h4⟩ := exists_chain_of_nestedCount (validB b.trie) (terminalB b.trie)
      (validB_nil _) (validB_of_append _) p.length p (Nat.le_refl _) hp
    exact ⟨c, ⟨h1, fun x hx => ⟨(terminalB_trie b x).1 (h2 x hx).1, (h2 x hx).2.1⟩, h3⟩,
      fun z hz => (h2 z hz).2.2, h4⟩
  · intro c hc hin
    cases c with
    | nil => simp
    | cons a rest =>
      obtain ⟨hnd, hmem, hch⟩ := hc
      have hT : ∀ z ∈ a :: rest, terminalB b.trie z = true :=
        fun z hz => (terminalB_trie b z).2 (hmem z hz).1
      obtain ⟨q, hq, hle⟩ := chain_le_nestedCount (validB b.trie) (terminalB b.trie)
        (terminalB_validB _) rest a 1 hnd hT hch
        (nestedCount_pos _ _ a (hmem a (List.mem_cons_self _ _)).2 (hT a (List.mem_cons_self _ _)))
      have := nestedCount_infix_le (validB b.trie) (terminalB b.trie) p q (hin q hq)
        (terminalB_validB _ _ (hT q hq))
      simp only [List.length_cons]
      omega

/-- The answer of `Build` is the length of the longest chain of nested patterns. -/
theorem Build_spec (b : AhoCorasickBuilder) :
    ∃ k, b.Build = some k ∧ (∃ c, IsNestedChain b.strings_ c ∧ c.length = k) ∧
      (∀ c, IsNestedChain b.strings_ c → c.length ≤ k) := by
  obtain ⟨t, k, he, -, -, -, -, hle, ⟨q, hq, hk⟩⟩ := automaton_spec b
  refine ⟨k, by simp [AhoCorasickBuilder.Build, he], ?_, ?_⟩
  · obtain ⟨c, hc, -, hlen⟩ := (nestedCount_chain b q hq).1
    exact ⟨c, hc, hlen.trans hk⟩
  · intro c hc
    cases c with
    | nil => simp
    | cons a rest =>
      obtain ⟨hnd, hmem, hch⟩ := hc
      have hT : ∀ z ∈ a :: rest, terminalB b.trie z = true :=
        fun z hz => (terminalB_trie b z).2 (hmem z hz).1
      obtain ⟨q, hq, hle'⟩ := chain_le_nestedCount (validB b.trie) (terminalB b.trie)
        (terminalB_validB _) rest a 1 hnd hT hch
        (nestedCount_pos _ _ a (hmem a (List.mem_cons_self _ _)).2 (hT a (List.mem_cons_self _ _)))
      have := hle q (terminalB_validB _ _ (hT q hq))
      simp only [List.length_cons]
      omega

theorem IsNestedChain_congr (L1 L2 c : List (List Char)) (h : ∀ x, x ∈ L1 ↔ x ∈ L2) :
    IsNestedChain L1 c ↔ IsNestedChain L2 c := by
  unfold IsNestedChain
  simp only [h]

/-- The answer of `Build` depends only on the set of the added strings. -/
theorem Build_congr (b1 b2 : AhoCorasickBuilder)
    (h : ∀ x, x ∈ b1.strings_ ↔ x ∈ b2.strings_) : b1.Build = b2.Build := by
  obtain ⟨k1, e1, ⟨c1, hc1, hl1⟩, u1⟩ := Build_spec b1
  obtain ⟨k2, e2, ⟨c2, hc2, hl2⟩, u2⟩ := Build_spec b2
  have a1 := u2 c1 ((IsNestedChain_congr _ _ c1 h).1 hc1)
  have a2 := u1 c2 ((IsNestedChain_congr _ _ c2 h).2 hc2)
  rw [e1, e2]
  congr 1
  omega

theorem foldl_builder_AddString (L : List (List Char)) (b : AhoCorasickBuilder) :
    L.foldl AhoCorasickBuilder.AddString b = ⟨b.strings_ ++ L⟩ := by
  induction L generalizing b with
  | nil => simp
  | cons s L ih =>
    simp only [List.foldl_cons, ih, AhoCorasickBuilder.AddString, List.append_assoc,
      List.singleton_append]

theorem foldl_finder_AddString (L : List (List Char)) (b : NestedSubstringFinderBuilder) :
    L.foldl NestedSubstringFinderBuilder.AddString b = ⟨b.strings_ ++ L⟩ := by
  induction L generalizing b with
  | nil => simp
  | cons s L ih =>
    simp only [List.foldl_cons, ih, NestedSubstringFinderBuilder.AddString, List.append_assoc,
      List.singleton_append]
/-! ## Inserting a string again -/

theorem cacheSet_eq_self (m : List (Char × Ptr)) (ch : Char) (v : Ptr)
    (h : mapFind m ch = some v) : cacheSet m ch v = m := by
  induction m with
  | nil => simp [mapFind] at h
  | cons kv rest ih =>
    obtain ⟨k, w⟩ := kv
    by_cases hk : k = ch
    · simp only [mapFind, hk, if_true, Option.some.injEq] at h
      simp [cacheSet, hk, h]
    · simp only [mapFind, hk, if_false] at h
      simp [cacheSet, hk, ih h]

theorem mapModify_eq_self {β : Type} (m : List (Char × β)) (c : Char) (g : β → β)
    (h : ∀ k, mapFind m c = some k → g k = k) : mapModify m c g = m := by
  induction m with
  | nil => rfl
  | cons kv rest ih =>
    obtain ⟨k, w⟩ := kv
    by_cases hk : k = c
    · have := h w (by simp [mapFind, hk])
      simp [mapModify, hk, this]
    · have h' : ∀ k', mapFind rest c = some k' → g k' = k' := by
        intro k' hk'
        exact h k' (by simp [mapFind, hk, hk'])
      simp [mapModify, hk, ih h']

/-- A write that does not change the node it is aimed at leaves the tree as it is. -/
theorem modify_eq_self (f : AhoCorasickNode → AhoCorasickNode) (p : Ptr) :
    ∀ (t n : AhoCorasickNode), deref t p = some n → f n = n → modify f t p = t := by
  induction p with
  | nil =>
    intro t n h hf
    simp only [deref, Option.some.injEq] at h
    subst h
    exact hf
  | cons c p ih =>
    intro t n h hf
    simp only [deref] at h
    simp only [modify]
    have : mapModify t.trie_transitions_ c (fun k => modify f k p) = t.trie_transitions_ := by
      apply mapModify_eq_self
      intro k hk
      rw [hk] at h
      exact ih k n h hf
    rw [this]
    cases t
    rfl

theorem TermBit_init : TermBit AhoCorasickNode.init := by
  intro p v h
  cases p with
  | nil =>
    simp only [viewAt, deref, Option.map_some', Option.some.injEq] at h
    subst h
    simp [AhoCorasickNode.init, AhoCorasickNode.view]
  | cons c p => simp [viewAt, deref_init_cons] at h

theorem TermBit_step (t n : AhoCorasickNode) (curr : Ptr) (ch : Char)
    (hn : deref t curr = some n) (hb : TermBit t) :
    TermBit (modify (AddString.step curr ch) t curr) := by
  intro q v hv
  rw [viewAt_step t n curr ch hn q] at hv
  by_cases h1 : q = curr
  · subst h1
    rw [if_pos rfl] at hv
    simp only [Option.some.injEq] at hv
    subst hv
    exact hb q n.view (by simp [viewAt, hn])
  · rw [if_neg h1] at hv
    by_cases h2 : q = curr ++ [ch] ∧ (mapFind n.trie_transitions_ ch).isNone = true
    · rw [if_pos h2] at hv
      simp only [Option.some.injEq] at hv
      subst hv
      simp [AhoCorasickNode.init, AhoCorasickNode.view]
    · rw [if_neg h2] at hv
      exact hb q v hv

theorem TermBit_setTerminal (t : AhoCorasickNode) (curr : Ptr) (hb : TermBit t) :
    TermBit (modify (fun n => { n with is_terminal := 1 }) t curr) := by
  intro q v hv
  by_cases h : q = curr
  · subst h
    rw [viewAt_modify_self] at hv
    cases hd : deref t q with
    | none => simp [hd] at hv
    | some n =>
      simp only [hd, Option.map_some', Option.some.injEq] at hv
      subst hv
      simp [AhoCorasickNode.view]
  · rw [viewAt_modify_of_ne _ setTerminal_kids t curr q h] at hv
    exact hb q v hv

theorem TermBit_loop (s : List Char) (t : AhoCorasickNode) (curr : Ptr)
    (hv : validB t curr = true) (hb : TermBit t) : TermBit (AddString.loop t curr s) := by
  induction s generalizing t curr with
  | nil => exact TermBit_setTerminal t curr hb
  | cons ch s ih =>
    obtain ⟨n, hn⟩ := deref_of_validB t curr hv
    exact ih _ _ ((validB_step t n curr ch hn _).2 (Or.inr rfl)) (TermBit_step t n curr ch hn hb)

theorem TermBit_foldl (L : List (List Char)) (t : AhoCorasickNode) (hb : TermBit t) :
    TermBit (L.foldl AddString t) := by
  induction L generalizing t with
  | nil => exact hb
  | cons s L ih => exact ih _ (TermBit_loop s t [] rfl hb)

theorem TermBit_trie (b : AhoCorasickBuilder) : TermBit b.trie := by
  rw [trie_eq]
  exact TermBit_foldl _ _ TermBit_init

/-- Adding a string that ends at a terminal node of the trie changes nothing. -/
theorem AddString_loop_idem (s : List Char) (t : AhoCorasickNode) (curr : Ptr)
    (hwf : TrieWF t) (hb : TermBit t) (hT : terminalB t (curr ++ s) = true) :
    AddString.loop t curr s = t := by
  induction s generalizing curr with
  | nil =>
    rw [List.append_nil] at hT
    obtain ⟨n, hn⟩ := deref_of_validB t curr (terminalB_validB t curr hT)
    have h1 := hb curr n.view (by simp [viewAt, hn])
    have h2 := terminalB_of_deref t n curr hn
    rw [hT] at h2
    have h3 : n.is_terminal = 1 := by
      have : n.is_terminal ≠ 0 := by simpa using h2.symm
      simp only [AhoCorasickNode.view] at h1
      omega
    simp only [AddString.loop]
    apply modify_eq_self _ curr t n hn
    cases n
    simp only at h3
    simp [h3]
  | cons ch s ih =>
    have hv : validB t (curr ++ ch :: s) = true := terminalB_validB t _ hT
    have hvc : validB t (curr ++ [ch]) = true := by
      apply validB_of_append t (curr ++ [ch]) s
      simpa using hv
    obtain ⟨n, hn⟩ := deref_of_validB t curr (validB_of_append t curr [ch] hvc)
    have hf : (mapFind n.trie_transitions_ ch).isSome = true := by
      rw [← validB_snoc t n curr ch hn]; exact hvc
    have hcache := (hwf curr n hn).2 ch
    rw [hf, if_pos rfl] at hcache
    have hstep : AddString.step curr ch n = n := by
      cases hm : mapFind n.trie_transitions_ ch with
      | none => simp [hm] at hf
      | some k =>
        cases n
        simp only [AddString.step] at hm hcache ⊢
        simp [hm, cacheSet_eq_self _ _ _ hcache]
    simp only [AddString.loop]
    rw [modify_eq_self _ curr t n hn hstep]
    apply ih
    simpa using hT
/-! ## `GetAutomatonTransition` is total -/

theorem viewAt_of_deref (t n : AhoCorasickNode) (p : Ptr) (h : deref t p = some n) :
    viewAt t p = some n.view := by
  simp [viewAt, h]

/-- After `CalculateLinks` the links and the cache are fit for `GetAutomatonTransition`. -/
theorem GoodLinks_of_resolved (t : AhoCorasickNode) (hwf : TrieWF t)
    (hres : ∀ q, validB t q = true → Resolved t q) : GoodLinks t := by
  intro p v hv
  have hvalid : validB t p = true := by
    rw [validB_eq_viewAt, hv]; rfl
  obtain ⟨n, hn, hsl, -, -⟩ := hres p hvalid
  have hvn : v = n.view := by
    rw [viewAt_of_deref t n p hn] at hv
    exact (Option.some.inj hv).symm
  subst hvn
  constructor
  · intro sl hslv
    have : n.suffix_link_ = some sl := hslv
    rw [hsl] at this
    by_cases hp : p = []
    · simp [linkSpec, hp] at this
    · simp only [linkSpec, hp, if_false, Option.some.injEq] at this
      subst this
      exact ⟨suffixLinkSpec_length_lt _ p hp, suffixLinkSpec_mem _ (validB_nil t) p⟩
  · intro ch r hr
    have hc := (hwf p n hn).2 ch
    have hr' : mapFind n.automaton_transitions_cache_ ch = some r := hr
    rw [hc] at hr'
    by_cases hf : (mapFind n.trie_transitions_ ch).isSome = true
    · rw [if_pos hf] at hr'
      simp only [Option.some.injEq] at hr'
      subst hr'
      rw [validB_snoc t n p ch hn]
      exact hf
    · rw [if_neg hf] at hr'
      simp at hr'

theorem validB_cacheSet (t : AhoCorasickNode) (node : Ptr) (ch : Char) (res : Ptr) :
    validB (modify (fun m =>
      { m with
        automaton_transitions_cache_ := cacheSet m.automaton_transitions_cache_ ch res })
      t node) = validB t :=
  validB_modify (fun m =>
      { m with
        automaton_transitions_cache_ := cacheSet m.automaton_transitions_cache_ ch res })
    (fun _ => rfl) t node

theorem GoodLinks_cacheSet (t : AhoCorasickNode) (node : Ptr) (ch : Char) (res : Ptr)
    (hg : GoodLinks t) (hres : validB t res = true) :
    GoodLinks (modify (fun m =>
      { m with
        automaton_transitions_cache_ := cacheSet m.automaton_transitions_cache_ ch res })
      t node) := by
  intro q v hv
  rw [validB_cacheSet]
  by_cases hq : q = node
  · subst hq
    rw [viewAt_modify_self] at hv
    cases hd : deref t q with
    | none => simp [hd] at hv
    | some n =>
      simp only [hd, Option.map_some', Option.some.injEq] at hv
      subst hv
      obtain ⟨g1, g2⟩ := hg q n.view (viewAt_of_deref t n q hd)
      refine ⟨g1, ?_⟩
      intro c r hr
      simp only [AhoCorasickNode.view, mapFind_cacheSet] at hr
      by_cases hc : ch = c
      · simp only [hc, if_true, Option.some.injEq] at hr
        subst hr
        exact hres
      · simp only [hc, if_false] at hr
        exact g2 c r hr
  · rw [viewAt_modify_of_ne (fun m =>
      { m with
        automaton_transitions_cache_ := cacheSet m.automaton_transitions_cache_ ch res })
      (fun _ => rfl) t node q hq] at hv
    exact hg q v hv

/-- With fuel beyond the depth of the node `GetAutomatonTransition` returns a node of the trie,
and it leaves the automaton fit for further calls. -/
theorem GetAutomatonTransition_total :
    ∀ (fuel : Nat) (t : AhoCorasickNode) (node : Ptr) (ch : Char),
      GoodLinks t → validB t node = true → node.length < fuel →
      ∃ t1 r, GetAutomatonTransition fuel t node ch = some (t1, r) ∧
        validB t r = true ∧ validB t1 = validB t ∧ GoodLinks t1 := by
  intro fuel
  induction fuel with
  | zero => intro t node ch _ _ h; omega
  | succ fuel ih =>
    intro t node ch hg hv hlen
    obtain ⟨n, hn⟩ := deref_of_validB t node hv
    obtain ⟨g1, g2⟩ := hg node n.view (viewAt_of_deref t n node hn)
    rw [GetAutomatonTransition]
    simp only [hn]
    cases hc : mapFind n.automaton_transitions_cache_ ch with
    | some r => exact ⟨t, r, rfl, g2 ch r hc, rfl, hg⟩
    | none =>
      cases hsl : n.suffix_link_ with
      | none => exact ⟨t, node, rfl, hv, rfl, hg⟩
      | some sl =>
        obtain ⟨hlt, hslv⟩ := g1 sl hsl
        obtain ⟨t1, r, he, hr, hv1, hg1⟩ := ih t sl ch hg hslv (by omega)
        simp only [he]
        refine ⟨_, r, rfl, hr, ?_, ?_⟩
        · rw [validB_cacheSet, hv1]
        · exact GoodLinks_cacheSet t1 node ch r hg1 (by rw [hv1]; exact hr)
/-! ## The claims -/

/-- C1, as stated, fails: for the patterns "a" and "ab" the node "ab" ends with the counter 2,
while only one inserted pattern ("ab" itself) is a suffix of its path: the node is terminal and
its terminal link is none. -/
theorem C1_count_is_not_suffix_count :
    (((AhoCorasickBuilder.mk ["a".toList, "ab".toList]).automaton.bind
        (fun t => deref t "ab".toList)).map
          (fun n => (n.count_of_nested_substrings, n.is_terminal, n.terminal_link_))
        = some (2, 1, none)) ∧
      suffixPatternCount ["a".toList, "ab".toList] "ab".toList = 1 := by
  decide

/-- C1, amended: after `CalculateLinks` the counter of every node is the length of the longest
chain of pairwise different non-empty inserted patterns, each a contiguous substring of the
next, all of them lying inside the path of the node; `Build` returns the maximum of the
counters over all nodes. -/
theorem C1_count_is_longest_chain_inside (b : AhoCorasickBuilder) :
    ∃ t k, b.automaton = some t ∧ b.Build = some k ∧
      (∀ p n, deref t p = some n →
        (∃ c, IsNestedChain b.strings_ c ∧ (∀ z ∈ c, z <:+: p) ∧
          c.length = n.count_of_nested_substrings) ∧
        (∀ c, IsNestedChain b.strings_ c → (∀ z ∈ c, z <:+: p) →
          c.length ≤ n.count_of_nested_substrings) ∧
        n.count_of_nested_substrings ≤ k) ∧
      (∃ p n, deref t p = some n ∧ n.count_of_nested_substrings = k) := by
  obtain ⟨t, k, he, hv, hT, -, hres, hle, ⟨q, hq, hk⟩⟩ := automaton_spec b
  refine ⟨t, k, by simp [AhoCorasickBuilder.automaton, he],
    by simp [AhoCorasickBuilder.Build, he], ?_, ?_⟩
  · intro p n hn
    have hp : validB b.trie p = true := by
      rw [← hv]; simp [validB, hn]
    obtain ⟨m, hm, -, -, hcnt⟩ := hres p hp
    rw [hn] at hm
    have hmn : n = m := Option.some.inj hm
    subst hmn
    rw [hv, hT] at hcnt
    rw [hcnt]
    exact ⟨(nestedCount_chain b p hp).1, (nestedCount_chain b p hp).2, hle p hp⟩
  · obtain ⟨m, hm, -, -, hcnt⟩ := hres q hq
    rw [hv, hT] at hcnt
    exact ⟨q, m, hm, hcnt.trans hk⟩

/-- C2: `Build` returns the length of the longest chain of pairwise different non-empty inserted
patterns in which each one is a contiguous substring of the next; it returns 0 when no
non-empty pattern was added; for "a", "ab" and for "b", "abc" it returns 2. -/
theorem C2_Build_is_longest_nested_chain :
    (∀ b : AhoCorasickBuilder, ∃ k, b.Build = some k ∧
      (∃ c, IsNestedChain b.strings_ c ∧ c.length = k) ∧
      (∀ c, IsNestedChain b.strings_ c → c.length ≤ k) ∧
      ((∀ p ∈ b.strings_, p = []) → k = 0)) ∧
    (AhoCorasickBuilder.mk ["a".toList, "ab".toList]).Build = some 2 ∧
    (AhoCorasickBuilder.mk ["b".toList, "abc".toList]).Build = some 2 := by
  refine ⟨fun b => ?_, by decide, by decide⟩
  obtain ⟨k, hk, ⟨c, hc, hlen⟩, hmax⟩ := Build_spec b
  refine ⟨k, hk, ⟨c, hc, hlen⟩, hmax, fun hall => ?_⟩
  cases c with
  | nil => simpa using hlen.symm
  | cons a rest =>
    have := hc.2.1 a (List.mem_cons_self _ _)
    exact absurd (hall a this.1) this.2

/-- C3: for every list of patterns `L` and every permutation `L1` of it, `Build` after adding
the strings of `L1` returns a number, and `Build` after adding the strings of `L` returns the
same number. -/
theorem C3_Build_order_independent (L L1 : List (List Char)) (h : L1.Perm L) :
    ∃ k, (L1.foldl AhoCorasickBuilder.AddString ⟨[]⟩).Build = some k ∧
      (L.foldl AhoCorasickBuilder.AddString ⟨[]⟩).Build = some k := by
  obtain ⟨k, hk, -, -⟩ := Build_spec (L.foldl AhoCorasickBuilder.AddString ⟨[]⟩)
  refine ⟨k, ?_, hk⟩
  rw [← hk]
  apply Build_congr
  intro x
  simp only [foldl_builder_AddString, List.nil_append]
  exact h.mem_iff

/-- C3 at the lists "ab", "b", "cab" and "cab", "ab", "b", where the common answer is 3. -/
theorem C3_Build_order_independent_witness :
    ["ab".toList, "b".toList, "cab".toList].Perm ["cab".toList, "ab".toList, "b".toList] ∧
    (∃ k,
      (["ab".toList, "b".toList, "cab".toList].foldl AhoCorasickBuilder.AddString ⟨[]⟩).Build
        = some k ∧
      (["cab".toList, "ab".toList, "b".toList].foldl AhoCorasickBuilder.AddString ⟨[]⟩).Build
        = some k) ∧
    (["cab".toList, "ab".toList, "b".toList].foldl AhoCorasickBuilder.AddString ⟨[]⟩).Build
      = some 3 :=
  ⟨by decide, C3_Build_order_independent _ _ (by decide), by decide⟩

/-- C4: adding once more a string that was added before leaves the trie as it is (nodes, edges,
terminal marks and cache), and `Build` returns the same answer. -/
theorem C4_repeated_insertion_idempotent (L : List (List Char)) (p : List Char) (h : p ∈ L) :
    ((AhoCorasickBuilder.mk L).AddString p).trie = (AhoCorasickBuilder.mk L).trie ∧
    ((AhoCorasickBuilder.mk L).AddString p).Build = (AhoCorasickBuilder.mk L).Build := by
  have ht : ((AhoCorasickBuilder.mk L).AddString p).trie = (AhoCorasickBuilder.mk L).trie := by
    have e : ((AhoCorasickBuilder.mk L).AddString p).trie
        = AddString (AhoCorasickBuilder.mk L).trie p := by
      simp [AhoCorasickBuilder.trie, AhoCorasickBuilder.AddString, List.foldl_append]
    rw [e]
    exact AddString_loop_idem p _ [] (TrieWF_trie _) (TermBit_trie _)
      ((terminalB_trie (AhoCorasickBuilder.mk L) p).2 h)
  exact ⟨ht, by simp only [AhoCorasickBuilder.Build, ht]⟩

/-- C4 at the string "x" added twice. -/
theorem C4_repeated_insertion_idempotent_witness :
    "x".toList ∈ ["x".toList] ∧
    ((AhoCorasickBuilder.mk ["x".toList]).AddString "x".toList).trie
      = (AhoCorasickBuilder.mk ["x".toList]).trie ∧
    ((AhoCorasickBuilder.mk ["x".toList]).AddString "x".toList).Build
      = (AhoCorasickBuilder.mk ["x".toList]).Build :=
  ⟨by decide, C4_repeated_insertion_idempotent _ _ (by decide)⟩

/-- C5: with no pattern added `Build` returns 0, and the counter of the root is 0. -/
theorem C5_empty_input :
    (AhoCorasickBuilder.mk []).Build = some 0 ∧
    (AhoCorasickBuilder.mk []).automaton.map (fun t => t.count_of_nested_substrings)
      = some 0 := by
  decide

/-- C6, as stated, fails: for the empty pattern alone `Build` returns 0, not 1. -/
theorem C6_empty_pattern_alone_gives_zero :
    (AhoCorasickBuilder.mk [[]]).Build = some 0 ∧ (AhoCorasickBuilder.mk [[]]).Build ≠ some 1 := by
  decide

/-- C6, amended: for every non-empty pattern `P`, adding `P` alone and calling `Build`
returns 1. -/
theorem C6_single_nonempty_pattern (P : List Char) (h : P ≠ []) :
    (AhoCorasickBuilder.mk [P]).Build = some 1 := by
  obtain ⟨k, hk, ⟨c, hc, hlen⟩, hmax⟩ := Build_spec (AhoCorasickBuilder.mk [P])
  have h1 : 1 ≤ k := hmax [P]
    ⟨List.nodup_singleton _, by simpa using h, List.chain'_singleton _⟩
  have h2 : k ≤ 1 := by
    rw [← hlen]
    have hsub : c ⊆ [P] := fun x hx => (hc.2.1 x hx).1
    exact (List.subperm_of_subset hc.1 hsub).length_le
  rw [hk]
  congr 1
  omega

/-- C6, amended, at the pattern "abc". -/
theorem C6_single_nonempty_pattern_witness :
    "abc".toList ≠ [] ∧ (AhoCorasickBuilder.mk ["abc".toList]).Build = some 1 :=
  ⟨by decide, C6_single_nonempty_pattern _ (by decide)⟩
/-- C7: for a list of pairwise different non-empty patterns in which each one is a proper
suffix of the next, `Build` returns the number of patterns. -/
theorem C7_pure_nesting_chain (L : List (List Char)) (_hk : 1 ≤ L.length) (hnd : L.Nodup)
    (hne : ∀ p ∈ L, p ≠ []) (hchain : List.Chain' (fun a b => a <:+ b ∧ a ≠ b) L) :
    (AhoCorasickBuilder.mk L).Build = some L.length := by
  obtain ⟨k, hk', ⟨c, hc, hlen⟩, hmax⟩ := Build_spec (AhoCorasickBuilder.mk L)
  have h1 : L.length ≤ k := hmax L
    ⟨hnd, fun x hx => ⟨hx, hne x hx⟩, hchain.imp (fun {_ _} h => h.1.isInfix)⟩
  have h2 : k ≤ L.length := by
    rw [← hlen]
    have hsub : c ⊆ L := fun x hx => (hc.2.1 x hx).1
    exact (List.subperm_of_subset hc.1 hsub).length_le
  rw [hk']
  congr 1
  omega

/-- C7 at the patterns "a", "ba", "cba": the answer is 3. -/
theorem C7_pure_nesting_chain_witness :
    1 ≤ ["a".toList, "ba".toList, "cba".toList].length ∧
    ["a".toList, "ba".toList, "cba".toList].Nodup ∧
    (∀ p ∈ ["a".toList, "ba".toList, "cba".toList], p ≠ []) ∧
    List.Chain' (fun a b => a <:+ b ∧ a ≠ b) ["a".toList, "ba".toList, "cba".toList] ∧
    (AhoCorasickBuilder.mk ["a".toList, "ba".toList, "cba".toList]).Build = some 3 :=
  ⟨by decide, by decide, by decide,
    List.Chain'.cons ⟨by decide, by decide⟩
      (List.Chain'.cons ⟨by decide, by decide⟩ (List.chain'_singleton _)),
    C7_pure_nesting_chain ["a".toList, "ba".toList, "cba".toList] (by decide) (by decide)
      (by decide)
      (List.Chain'.cons ⟨by decide, by decide⟩
        (List.Chain'.cons ⟨by decide, by decide⟩ (List.chain'_singleton _)))⟩

/-- C8, as stated, fails: among "b" and "abc" no pattern is a suffix of the other, yet `Build`
returns 2. -/
theorem C8_no_suffix_relation_yet_two :
    ["b".toList, "abc".toList] ≠ [] ∧
    (∀ p ∈ ["b".toList, "abc".toList], p ≠ []) ∧
    (∀ p ∈ ["b".toList, "abc".toList], ∀ q ∈ ["b".toList, "abc".toList],
      p ≠ q → ¬ p <:+ q) ∧
    (AhoCorasickBuilder.mk ["b".toList, "abc".toList]).Build = some 2 := by
  decide

/-- C8, amended: for a non-empty list of non-empty patterns none of which is a contiguous
substring of a different one, `Build` returns 1. -/
theorem C8_no_substring_relation (L : List (List Char)) (hL : L ≠ [])
    (hne : ∀ p ∈ L, p ≠ [])
    (hno : ∀ p ∈ L, ∀ q ∈ L, p <:+: q → p = q) :
    (AhoCorasickBuilder.mk L).Build = some 1 := by
  obtain ⟨k, hk, ⟨c, hc, hlen⟩, hmax⟩ := Build_spec (AhoCorasickBuilder.mk L)
  have h1 : 1 ≤ k := by
    cases L with
    | nil => exact absurd rfl hL
    | cons a rest =>
      refine hmax [a] ⟨List.nodup_singleton _, fun x hx => ?_, List.chain'_singleton _⟩
      rw [List.mem_singleton] at hx
      subst hx
      exact ⟨List.mem_cons_self _ _, hne x (List.mem_cons_self _ _)⟩
  have h2 : k ≤ 1 := by
    rw [← hlen]
    match c, hc with
    | [], _ => simp
    | [_], _ => simp
    | a :: b :: rest, hc =>
      exfalso
      have hab : a ≠ b := by
        intro e
        have := (List.nodup_cons.1 hc.1).1
        exact this (by rw [e]; exact List.mem_cons_self _ _)
      have ha := (hc.2.1 a (List.mem_cons_self _ _)).1
      have hb := (hc.2.1 b (List.mem_cons_of_mem _ (List.mem_cons_self _ _))).1
      exact hab (hno a ha b hb (List.chain'_cons.1 hc.2.2).1)
  rw [hk]
  congr 1
  omega

/-- C8, amended, at the patterns "ab", "cd": the answer is 1. -/
theorem C8_no_substring_relation_witness :
    ["ab".toList, "cd".toList] ≠ [] ∧
    (∀ p ∈ ["ab".toList, "cd".toList], p ≠ []) ∧
    (∀ p ∈ ["ab".toList, "cd".toList], ∀ q ∈ ["ab".toList, "cd".toList], p <:+: q → p = q) ∧
    (AhoCorasickBuilder.mk ["ab".toList, "cd".toList]).Build = some 1 :=
  ⟨by decide, by decide, by decide,
    C8_no_substring_relation ["ab".toList, "cd".toList] (by decide) (by decide) (by decide)⟩

/-- C9: on one `NestedSubstringFinderBuilder`, adding the strings of `A`, calculating, resetting,
adding the strings of `B` and calculating again yields the answer of `Build` for `A` and then
the answer a fresh builder yields for `B` alone; calculating leaves the stored strings as they
are; for "a", "ba" followed by "q" the answers are 2 and 1. -/
theorem C9_multi_case_isolation :
    (∀ A B : List (List Char),
      (A.foldl NestedSubstringFinderBuilder.AddString ⟨[]⟩).CalcCountOfNestedSubstrings.2
        = (A.foldl AhoCorasickBuilder.AddString ⟨[]⟩).Build ∧
      (B.foldl NestedSubstringFinderBuilder.AddString
          (A.foldl NestedSubstringFinderBuilder.AddString
            ⟨[]⟩).CalcCountOfNestedSubstrings.1.Reset).CalcCountOfNestedSubstrings.2
        = (B.foldl NestedSubstringFinderBuilder.AddString ⟨[]⟩).CalcCountOfNestedSubstrings.2) ∧
    (∀ b : NestedSubstringFinderBuilder, b.CalcCountOfNestedSubstrings.1 = b) ∧
    (["a".toList, "ba".toList].foldl NestedSubstringFinderBuilder.AddString
      ⟨[]⟩).CalcCountOfNestedSubstrings.2 = some 2 ∧
    (["q".toList].foldl NestedSubstringFinderBuilder.AddString
      (["a".toList, "ba".toList].foldl NestedSubstringFinderBuilder.AddString
        ⟨[]⟩).CalcCountOfNestedSubstrings.1.Reset).CalcCountOfNestedSubstrings.2 = some 1 := by
  refine ⟨fun A B => ⟨?_, ?_⟩, fun b => rfl, by decide, by decide⟩
  · simp [NestedSubstringFinderBuilder.CalcCountOfNestedSubstrings, foldl_finder_AddString]
  · simp [NestedSubstringFinderBuilder.CalcCountOfNestedSubstrings, foldl_finder_AddString,
      NestedSubstringFinderBuilder.Reset]

/-- C10: in the automaton that `Build` constructs every suffix link leads to a strictly
shallower node of the trie, and for every node and every character
`GetAutomatonTransition`, given fuel beyond the depth of the node, returns a node of the
trie. -/
theorem C10_automaton_totality (b : AhoCorasickBuilder) :
    ∃ t, b.automaton = some t ∧
      (∀ p n sl, deref t p = some n → n.suffix_link_ = some sl →
        sl.length < p.length ∧ validB t sl = true) ∧
      (∀ node ch fuel, validB t node = true → node.length < fuel →
        ∃ t1 r, GetAutomatonTransition fuel t node ch = some (t1, r) ∧
          validB t r = true ∧ validB t1 r = true) := by
  obtain ⟨t, k, he, hv, -, hwf, hres, -, -⟩ := automaton_spec b
  have hg : GoodLinks t := GoodLinks_of_resolved t hwf (fun q hq => hres q (by rw [← hv]; exact hq))
  refine ⟨t, by simp [AhoCorasickBuilder.automaton, he], ?_, ?_⟩
  · intro p n sl hn hsl
    exact (hg p n.view (viewAt_of_deref t n p hn)).1 sl hsl
  · intro node ch fuel hnode hfuel
    obtain ⟨t1, r, e, hr, hv1, -⟩ := GetAutomatonTransition_total fuel t node ch hg hnode hfuel
    exact ⟨t1, r, e, hr, by rw [hv1]; exact hr⟩
/-! ## The suffix-link chain of a node -/

theorem linkChain_nil (t : AhoCorasickNode) (hres : ∀ q, validB t q = true → Resolved t q)
    (fuel : Nat) : linkChain t fuel [] = [] := by
  cases fuel with
  | zero => rfl
  | succ fuel =>
    obtain ⟨n, hn, hsl, -, -⟩ := hres [] rfl
    simp only [linkSpec, if_true] at hsl
    simp only [linkChain, hn, hsl]

theorem linkChain_succ (t : AhoCorasickNode) (hres : ∀ q, validB t q = true → Resolved t q)
    (fuel : Nat) (p : Ptr) (hp : validB t p = true) (hne : p ≠ []) :
    linkChain t (fuel + 1) p =
      suffixLinkSpec (validB t) p :: linkChain t fuel (suffixLinkSpec (validB t) p) := by
  obtain ⟨n, hn, hsl, -, -⟩ := hres p hp
  simp only [linkSpec, hne, if_false] at hsl
  simp only [linkChain, hn, hsl]

/-- The first node of the suffix-link chain that has a trie edge for `c` supplies the longest
proper suffix of the child's path that is a path of the trie. -/
theorem linkChain_find_edge (t : AhoCorasickNode)
    (hres : ∀ q, validB t q = true → Resolved t q) (x : Ptr) (c : Char) :
    ∀ fuel prev, validB t prev = true → prev <:+ x → prev.length < fuel →
      WalkInv (validB t) x c prev →
      (match (linkChain t fuel prev).find? (fun p => validB t (p ++ [c])) with
        | some p => p ++ [c]
        | none => []) = suffixLinkSpec (validB t) (x ++ [c]) := by
  intro fuel
  induction fuel with
  | zero => intro prev _ _ h; omega
  | succ fuel ih =>
    intro prev hv hsuf hlen hJ
    by_cases hnil : prev = []
    · subst hnil
      rw [linkChain_nil t hres]
      simp only [List.find?_nil]
      exact (suffixLinkSpec_snoc_none _ (validB_nil t) x c hJ).symm
    · rw [linkChain_succ t hres fuel prev hv hnil, List.find?_cons]
      have hslv := suffixLinkSpec_mem (validB t) (validB_nil t) prev
      have hlt := suffixLinkSpec_length_lt (validB t) prev hnil
      cases hf : validB t (suffixLinkSpec (validB t) prev ++ [c]) with
      | true =>
        simp only
        exact (suffixLinkSpec_snoc_found _ (validB_nil t) (validB_of_append t) x c prev hsuf
          hnil hJ hf).symm
      | false =>
        simp only
        exact ih _ hslv (((suffixLinkSpec_suffix _ prev).trans (List.tail_suffix prev)).trans hsuf)
          (by omega) (WalkInv_step _ (validB_of_append t) x c prev hsuf hJ hf)

theorem walkTarget_eq (t : AhoCorasickNode)
    (hres : ∀ q, validB t q = true → Resolved t q) (x : Ptr) (c : Char)
    (hx : validB t x = true) :
    walkTarget t x c = suffixLinkSpec (validB t) (x ++ [c]) :=
  linkChain_find_edge t hres x c (x.length + 1) x hx (List.suffix_refl x) (Nat.lt_succ_self _)
    (WalkInv_start _ x c)

/-- The terminal link of the specification is the first terminal node of the suffix-link
chain. -/
theorem terminalLinkSpec_eq_find (t : AhoCorasickNode)
    (hres : ∀ q, validB t q = true → Resolved t q) :
    ∀ fuel p, validB t p = true →
      terminalLinkSpec (validB t) (terminalB t) fuel p =
        (linkChain t fuel p).find? (terminalB t) := by
  intro fuel
  induction fuel with
  | zero => intro p _; rfl
  | succ fuel ih =>
    intro p hp
    by_cases hnil : p = []
    · subst hnil
      rw [linkChain_nil t hres]
      simp [terminalLinkSpec]
    · rw [linkChain_succ t hres fuel p hp hnil, List.find?_cons, terminalLinkSpec]
      simp only [hnil, if_false]
      have hslv := suffixLinkSpec_mem (validB t) (validB_nil t) p
      cases hT : terminalB t (suffixLinkSpec (validB t) p) with
      | true => simp
      | false =>
        simp only [Bool.false_eq_true, if_false]
        exact ih _ hslv

/-- The suffix-link chain of a node below the root ends at the root. -/
theorem linkChain_getLast (t : AhoCorasickNode)
    (hres : ∀ q, validB t q = true → Resolved t q) :
    ∀ fuel p, validB t p = true → p ≠ [] → p.length < fuel →
      (linkChain t fuel p).getLast? = some [] := by
  intro fuel
  induction fuel with
  | zero => intro p _ _ h; omega
  | succ fuel ih =>
    intro p hp hne hlen
    rw [linkChain_succ t hres fuel p hp hne]
    have hslv := suffixLinkSpec_mem (validB t) (validB_nil t) p
    have hlt := suffixLinkSpec_length_lt (validB t) p hne
    by_cases hs : suffixLinkSpec (validB t) p = []
    · rw [hs, linkChain_nil t hres]
      rfl
    · have := ih _ hslv hs (by omega)
      rw [List.getLast?_cons, this]
      rfl

theorem linkChain_mem (t : AhoCorasickNode)
    (hres : ∀ q, validB t q = true → Resolved t q) :
    ∀ fuel p q, validB t p = true → q ∈ linkChain t fuel p →
      validB t q = true ∧ q.length < p.length := by
  intro fuel
  induction fuel with
  | zero => intro p q _ h; simp [linkChain] at h
  | succ fuel ih =>
    intro p q hp hq
    by_cases hnil : p = []
    · subst hnil
      rw [linkChain_nil t hres] at hq
      simp at hq
    · rw [linkChain_succ t hres fuel p hp hnil] at hq
      have hslv := suffixLinkSpec_mem (validB t) (validB_nil t) p
      have hlt := suffixLinkSpec_length_lt (validB t) p hnil
      rcases List.mem_cons.1 hq with e | e
      · subst e; exact ⟨hslv, hlt⟩
      · obtain ⟨h1, h2⟩ := ih _ q hslv e
        exact ⟨h1, by omega⟩
/-! ## The cache of `GetAutomatonTransition` against the reference transition -/

theorem transitionSpec_fuel (S : Ptr → Bool) (ch : Char) (f1 f2 : Nat) (p : Ptr)
    (h1 : p.length < f1) (h2 : p.length < f2) :
    transitionSpec S f1 p ch = transitionSpec S f2 p ch := by
  induction f1 generalizing f2 p with
  | zero => omega
  | succ f1 ih =>
    cases f2 with
    | zero => omega
    | succ f2 =>
      simp only [transitionSpec]
      by_cases hS : S (p ++ [ch]) = true
      · simp [hS]
      · by_cases hp : p = []
        · simp [hS, hp]
        · simp only [hS, hp, if_false, Bool.false_eq_true]
          have hl := suffixLinkSpec_length_lt S p hp
          exact ih f2 _ (by omega) (by omega)

/-- The reference transition read off the automaton is the one of the specification. -/
theorem referenceTransition_eq (t : AhoCorasickNode)
    (hsl : ∀ p n, deref t p = some n → n.suffix_link_ = linkSpec (validB t) p) (ch : Char) :
    ∀ fuel p, validB t p = true → p.length < fuel →
      referenceTransition t fuel p ch = some (transitionSpec (validB t) fuel p ch) := by
  intro fuel
  induction fuel with
  | zero => intro p _ h; omega
  | succ fuel ih =>
    intro p hp hlen
    obtain ⟨n, hn⟩ := deref_of_validB t p hp
    have hv := validB_snoc t n p ch hn
    have hs := hsl p n hn
    simp only [referenceTransition, transitionSpec, hn]
    cases hf : mapFind n.trie_transitions_ ch with
    | some k =>
      rw [hf] at hv
      simp [hv]
    | none =>
      rw [hf] at hv
      have hv' : validB t (p ++ [ch]) = false := by simpa using hv
      simp only [hv', Bool.false_eq_true, if_false]
      by_cases hnil : p = []
      · subst hnil
        simp only [linkSpec, if_true] at hs
        simp [hs]
      · simp only [linkSpec, hnil, if_false] at hs
        simp only [hs, hnil, if_false]
        exact ih _ (suffixLinkSpec_mem _ (validB_nil t) p)
          (by have := suffixLinkSpec_length_lt (validB t) p hnil; omega)

/-- Right after `CalculateLinks` the cache holds the trie edges only, which are reference
transitions. -/
theorem TransInv_of_resolved (t : AhoCorasickNode) (hwf : TrieWF t)
    (hres : ∀ q, validB t q = true → Resolved t q) : TransInv t := by
  rw [TrieWF_iff] at hwf
  intro p v hv
  have hvalid : validB t p = true := by
    rw [validB_eq_viewAt, hv]; rfl
  obtain ⟨n, hn, hsl, -, -⟩ := hres p hvalid
  have hvn : v = n.view := by
    rw [viewAt_of_deref t n p hn] at hv
    exact (Option.some.inj hv).symm
  obtain ⟨-, hc⟩ := hwf p v hv
  have hkey : ∀ ch, ch ∈ v.keys → validB t (p ++ [ch]) = true := by
    intro ch hch
    rw [validB_snoc t n p ch hn, mapFind_isSome_iff]
    rw [hvn] at hch
    exact hch
  refine ⟨by rw [hvn]; exact hsl, ?_, ?_⟩
  · intro ch hch
    rw [hc ch, if_pos hch]
  · intro ch r hr
    rw [hc ch] at hr
    by_cases hch : ch ∈ v.keys
    · rw [if_pos hch] at hr
      simp only [Option.some.injEq] at hr
      subst hr
      simp [transitionSpec, hkey ch hch]
    · rw [if_neg hch] at hr
      simp at hr

theorem TransInv_cacheSet (t : AhoCorasickNode) (node : Ptr) (ch : Char) (res : Ptr)
    (hg : TransInv t) (hnot : validB t (node ++ [ch]) = false)
    (hres : res = transitionSpec (validB t) (node.length + 1) node ch) :
    TransInv (modify (fun m =>
      { m with
        automaton_transitions_cache_ := cacheSet m.automaton_transitions_cache_ ch res })
      t node) := by
  intro q v hv
  rw [validB_cacheSet]
  by_cases hq : q = node
  · subst hq
    rw [viewAt_modify_self] at hv
    cases hd : deref t q with
    | none => simp [hd] at hv
    | some n =>
      simp only [hd, Option.map_some', Option.some.injEq] at hv
      subst hv
      obtain ⟨g1, g2, g3⟩ := hg q n.view (viewAt_of_deref t n q hd)
      have hck : ch ∉ n.view.keys := by
        intro hin
        have : validB t (q ++ [ch]) = true := by
          rw [validB_snoc t n q ch hd, mapFind_isSome_iff]
          exact hin
        rw [hnot] at this
        exact absurd this (by simp)
      refine ⟨g1, ?_, ?_⟩
      · intro c hc
        have hne : ¬ ch = c := by
          intro e; subst e; exact hck hc
        simp only [AhoCorasickNode.view, mapFind_cacheSet, hne, if_false]
        exact g2 c hc
      · intro c r hr
        simp only [AhoCorasickNode.view, mapFind_cacheSet] at hr
        by_cases hc : ch = c
        · simp only [hc, if_true, Option.some.injEq] at hr
          subst hc
          rw [← hr, hres]
        · simp only [hc, if_false] at hr
          exact g3 c r hr
  · rw [viewAt_modify_of_ne (fun m =>
      { m with
        automaton_transitions_cache_ := cacheSet m.automaton_transitions_cache_ ch res })
      (fun _ => rfl) t node q hq] at hv
    exact hg q v hv

/-- `GetAutomatonTransition` returns the reference transition and keeps the cache right. -/
theorem GetAutomatonTransition_spec :
    ∀ (fuel : Nat) (t : AhoCorasickNode) (node : Ptr) (ch : Char),
      TransInv t → validB t node = true → node.length < fuel →
      ∃ t1, GetAutomatonTransition fuel t node ch =
          some (t1, transitionSpec (validB t) fuel node ch) ∧
        validB t1 = validB t ∧ TransInv t1 := by
  intro fuel
  induction fuel with
  | zero => intro t node ch _ _ h; omega
  | succ fuel ih =>
    intro t node ch hg hv hlen
    obtain ⟨n, hn⟩ := deref_of_validB t node hv
    obtain ⟨g1, g2, g3⟩ := hg node n.view (viewAt_of_deref t n node hn)
    rw [GetAutomatonTransition]
    simp only [hn]
    cases hc : mapFind n.automaton_transitions_cache_ ch with
    | some r =>
      refine ⟨t, ?_, rfl, hg⟩
      simp only
      rw [g3 ch r hc, transitionSpec_fuel _ ch (fuel + 1) (node.length + 1) node hlen
        (Nat.lt_succ_self _)]
    | none =>
      have hnot : validB t (node ++ [ch]) = false := by
        cases hvb : validB t (node ++ [ch]) with
        | false => rfl
        | true =>
          rw [validB_snoc t n node ch hn, mapFind_isSome_iff] at hvb
          have := g2 ch hvb
          simp only [AhoCorasickNode.view] at this
          rw [hc] at this
          exact absurd this (by simp)
      have hsl : n.suffix_link_ = linkSpec (validB t) node := g1
      by_cases hnil : node = []
      · subst hnil
        simp only [linkSpec, if_true] at hsl
        simp only [hsl]
        refine ⟨t, ?_, rfl, hg⟩
        simp only [transitionSpec, hnot, Bool.false_eq_true, if_false, if_true]
      · simp only [linkSpec, hnil, if_false] at hsl
        simp only [hsl]
        have hslv := suffixLinkSpec_mem (validB t) (validB_nil t) node
        have hlt := suffixLinkSpec_length_lt (validB t) node hnil
        obtain ⟨t1, he, hv1, hg1⟩ := ih t _ ch hg hslv (by omega)
        simp only [he]
        have hval : transitionSpec (validB t) (fuel + 1) node ch
            = transitionSpec (validB t) fuel (suffixLinkSpec (validB t) node) ch := by
          simp [transitionSpec, hnot, hnil]
        rw [hval]
        refine ⟨_, rfl, ?_, ?_⟩
        · rw [validB_cacheSet, hv1]
        · apply TransInv_cacheSet t1 node ch _ hg1 (by rw [hv1]; exact hnot)
          rw [hv1, ← hval]
          exact transitionSpec_fuel _ ch _ _ node hlen (Nat.lt_succ_self _)

/-- Every sequence of calls at nodes of the trie succeeds and keeps the cache right. -/
theorem runCalls_spec (calls : List (Nat × Ptr × Char)) :
    ∀ t, TransInv t → (∀ c ∈ calls, validB t c.2.1 = true ∧ c.2.1.length < c.1) →
      ∃ t1, runCalls t calls = some t1 ∧ validB t1 = validB t ∧ TransInv t1 := by
  induction calls with
  | nil => intro t hg _; exact ⟨t, rfl, rfl, hg⟩
  | cons c rest ih =>
    intro t hg hc
    obtain ⟨fuel, node, ch⟩ := c
    obtain ⟨h1, h2⟩ := hc (fuel, node, ch) (List.mem_cons_self _ _)
    obtain ⟨t1, he, hv1, hg1⟩ := GetAutomatonTransition_spec fuel t node ch hg h1 h2
    obtain ⟨t2, he2, hv2, hg2⟩ := ih t1 hg1 (fun d hd => by
      rw [hv1]; exact hc d (List.mem_cons_of_mem _ hd))
    exact ⟨t2, by simp only [runCalls, he, he2], hv2.trans hv1, hg2⟩
/-! ## The branch for a child without suffix link -/

theorem LoopInv_resolved_le (t : AhoCorasickNode) (x : Ptr) (rest : List Ptr) (res : Nat)
    (inv : LoopInv t (x :: rest) res) :
    ∀ q, validB t q = true → q.length ≤ x.length → Resolved t q := by
  have hsorted := List.pairwise_cons.1 inv.sorted
  intro q hq hl
  by_cases hq0 : q = []
  · subst hq0; exact inv.root
  · rcases inv.cover q hq hq0 with h | ⟨a, ha, hpre, hne⟩
    · exact h.1
    · exfalso
      have h1 := proper_prefix_length a q hpre hne
      rcases List.mem_cons.1 ha with e | e
      · subst e; omega
      · have := hsorted.1 a e; omega

/-- In the body of the `for` loop the child has its suffix link when the counting part
starts. -/
theorem nullBranch_false (t : AhoCorasickNode) (x : Ptr) (c : Char)
    (hx : validB t x = true) (hc : validB t (x ++ [c]) = true)
    (hres : ∀ q, validB t q = true → q.length ≤ x.length → Resolved t q) :
    CalculateLinks.nullBranch t x c = false := by
  obtain ⟨nc, hnc⟩ := deref_of_validB t _ hc
  have hslk_lt : (suffixLinkSpec (validB t) (x ++ [c])).length < (x ++ [c]).length :=
    suffixLinkSpec_length_lt (validB t) (x ++ [c]) (by simp)
  have hslk_le : (suffixLinkSpec (validB t) (x ++ [c])).length ≤ x.length := by
    simp only [List.length_append, List.length_singleton] at hslk_lt
    omega
  have hslk_v : validB t (suffixLinkSpec (validB t) (x ++ [c])) = true :=
    suffixLinkSpec_mem (validB t) (validB_nil t) _
  have hslk_ne := ne_snoc_of_length_le _ x c hslk_le
  obtain ⟨s, hs⟩ := deref_of_validB t _ hslk_v
  obtain ⟨s1, hs1, -⟩ := deref_modify_other
    (fun n => { n with suffix_link_ := some (suffixLinkSpec (validB t) (x ++ [c])) })
    (fun _ => rfl) t (x ++ [c]) _ hslk_ne s hs
  unfold CalculateLinks.nullBranch
  rw [suffixLink_eq t x c hx hres]
  simp only
  rw [terminalLink_eq _ _ s1 (x ++ [c]) (suffixLinkSpec (validB t) (x ++ [c]))
    (by rw [deref_modify_self, hnc]; rfl) rfl hs1]
  simp only [modify_modify, deref_modify_self, hnc, Option.map_some', Option.isNone_some]

theorem childrenNull_false (x : Ptr) (ks : List Char) :
    ∀ (t : AhoCorasickNode) (res : Nat),
      validB t x = true → (∀ c ∈ ks, validB t (x ++ [c]) = true) →
      (∀ q, validB t q = true → q.length ≤ x.length → Resolved t q) →
      CalculateLinks.childrenNull x ks t res = false := by
  induction ks with
  | nil => intro t res _ _ _; rfl
  | cons c ks ih =>
    intro t res hx hks hres
    have hc : validB t (x ++ [c]) = true := hks c (List.mem_cons_self _ _)
    have hv1 := validB_modify _ (resolveNode_kids (validB t) (terminalB t) (x ++ [c])) t (x ++ [c])
    rw [CalculateLinks.childrenNull, nullBranch_false t x c hx hc hres,
      child_eq t x c res hx hc hres]
    simp only [Bool.false_or]
    exact ih _ _ (by rw [hv1]; exact hx)
      (fun d hd => by rw [hv1]; exact hks d (List.mem_cons_of_mem _ hd))
      (fun q hq hl => Resolved_resolve t x c hc q (hres q (by rw [hv1] at hq; exact hq) hl))

theorem loopNull_false : ∀ (fuel : Nat) (t : AhoCorasickNode) (queue : List Ptr) (res : Nat),
    LoopInv t queue res → CalculateLinks.loopNull fuel t queue res = false := by
  intro fuel
  induction fuel with
  | zero => intro t queue res _; rfl
  | succ fuel ih =>
    intro t queue res inv
    cases queue with
    | nil => rfl
    | cons x rest =>
      obtain ⟨n, t1, res1, hn, he, inv1, -, -, -⟩ := loop_step t x rest res inv
      have hx : validB t x = true := inv.valid x (List.mem_cons_self _ _)
      have hkeys : ∀ c ∈ n.trie_transitions_.map Prod.fst, validB t (x ++ [c]) = true := by
        intro c hc
        rw [validB_snoc t n x c hn, mapFind_isSome_iff]
        exact hc
      rw [CalculateLinks.loopNull]
      simp only [hn, he, childrenNull_false x _ t res hx hkeys
        (LoopInv_resolved_le t x rest res inv), Bool.false_or]
      exact ih t1 _ res1 inv1

/-- A run of `CalculateLinks` on a well-formed trie never enters the branch of the counting
part in which the suffix link of the child is none. -/
theorem takesNullBranch_false (t : AhoCorasickNode) (hwf : TrieWF t)
    (hcount : t.count_of_nested_substrings = 0) :
    CalculateLinks.takesNullBranch t = false :=
  loopNull_false _ _ _ _ (LoopInv_start t hwf hcount)
/-! ## Chains of nested patterns -/

theorem IsNestedChain_erase (L c : List (List Char)) (p : List Char)
    (hc : IsNestedChain (L ++ [p]) c) :
    IsNestedChain L (c.erase p) ∧ c.length ≤ (c.erase p).length + 1 := by
  obtain ⟨hnd, hmem, hch⟩ := hc
  haveI : IsTrans (List Char) (fun a b => a <:+: b) := ⟨fun _ _ _ => List.IsInfix.trans⟩
  refine ⟨⟨hnd.sublist (List.erase_sublist p c), ?_, hch.sublist (List.erase_sublist p c)⟩, ?_⟩
  · intro x hx
    obtain ⟨hxp, hxc⟩ := (List.Nodup.mem_erase_iff hnd).1 hx
    obtain ⟨h1, h2⟩ := hmem x hxc
    refine ⟨?_, h2⟩
    rcases List.mem_append.1 h1 with h | h
    · exact h
    · exact absurd (List.mem_singleton.1 h) hxp
  · rw [List.length_erase]
    split <;> omega

theorem IsNestedChain_mono (L1 L2 c : List (List Char)) (h : ∀ x, x ∈ L1 → x ∈ L2)
    (hc : IsNestedChain L1 c) : IsNestedChain L2 c :=
  ⟨hc.1, fun x hx => ⟨h x (hc.2.1 x hx).1, (hc.2.1 x hx).2⟩, hc.2.2⟩

/-- A chain of nested patterns is not longer than one of its members. -/
theorem chain_le_length :
    ∀ (rest : List (List Char)) (a : List Char) (m : Nat),
      (a :: rest).Nodup → List.Chain' (fun u v => u <:+: v) (a :: rest) → m ≤ a.length →
      ∃ q ∈ a :: rest, m + rest.length ≤ q.length := by
  intro rest
  induction rest with
  | nil =>
    intro a m _ _ hm
    exact ⟨a, List.mem_cons_self _ _, by simpa using hm⟩
  | cons b rest ih =>
    intro a m hnd hch hm
    have hab : a ≠ b := by
      intro e
      exact (List.nodup_cons.1 hnd).1 (by rw [e]; exact List.mem_cons_self _ _)
    obtain ⟨hinf, hch'⟩ := List.chain'_cons.1 hch
    have hlt : a.length < b.length := by
      rcases Nat.lt_or_ge a.length b.length with h | h
      · exact h
      · exact absurd (hinf.eq_of_length_le h) hab
    obtain ⟨q, hq, hle⟩ := ih b (m + 1) (List.nodup_cons.1 hnd).2 hch' (by omega)
    refine ⟨q, List.mem_cons_of_mem _ hq, ?_⟩
    simp only [List.length_cons]
    omega

theorem le_longestLength (L : List (List Char)) (q : List Char) (hq : q ∈ L) :
    q.length ≤ longestLength L := by
  induction L with
  | nil => simp at hq
  | cons a L ih =>
    simp only [longestLength, List.map_cons, List.foldr_cons]
    rcases List.mem_cons.1 hq with e | e
    · subst e; exact Nat.le_max_left _ _
    · exact Nat.le_trans (ih e) (Nat.le_max_right _ _)

/-! ## The claims on the links, the cache and the bounds -/

/-- C11: after `CalculateLinks`, in every state reached by a sequence of calls of
`GetAutomatonTransition` at nodes of the trie, `GetAutomatonTransition` returns for every node
and character the node given by the cache-free reference definition, and every entry of the
cache is that reference value. -/
theorem C11_cache_transparency (b : AhoCorasickBuilder) :
    ∃ t0, b.automaton = some t0 ∧
      ∀ calls : List (Nat × Ptr × Char),
        (∀ c ∈ calls, validB t0 c.2.1 = true ∧ c.2.1.length < c.1) →
        ∃ t, runCalls t0 calls = some t ∧
          (∀ node ch fuel, validB t0 node = true → node.length < fuel →
            ∃ t1 r, GetAutomatonTransition fuel t node ch = some (t1, r) ∧
              referenceTransition t0 fuel node ch = some r) ∧
          (∀ p n ch r, deref t p = some n → mapFind n.automaton_transitions_cache_ ch = some r →
            referenceTransition t0 (p.length + 1) p ch = some r) := by
  obtain ⟨t0, k, he, hv, -, hwf, hres, -, -⟩ := automaton_spec b
  have hres0 : ∀ q, validB t0 q = true → Resolved t0 q :=
    fun q hq => hres q (by rw [← hv]; exact hq)
  have hg : TransInv t0 := TransInv_of_resolved t0 hwf hres0
  have hsl : ∀ p n, deref t0 p = some n → n.suffix_link_ = linkSpec (validB t0) p :=
    fun p n hn => (hg p n.view (viewAt_of_deref t0 n p hn)).1
  refine ⟨t0, by simp [AhoCorasickBuilder.automaton, he], fun calls hcalls => ?_⟩
  obtain ⟨t, hrun, hvt, hgt⟩ := runCalls_spec calls t0 hg hcalls
  refine ⟨t, hrun, ?_, ?_⟩
  · intro node ch fuel hnode hfuel
    obtain ⟨t1, e, -, -⟩ := GetAutomatonTransition_spec fuel t node ch hgt
      (by rw [hvt]; exact hnode) hfuel
    refine ⟨t1, _, e, ?_⟩
    rw [hvt]
    exact referenceTransition_eq t0 hsl ch fuel node hnode hfuel
  · intro p n ch r hn hr
    have hp : validB t0 p = true := by
      rw [← hvt]; simp [validB, hn]
    have := (hgt p n.view (viewAt_of_deref t n p hn)).2.2 ch r hr
    rw [this, hvt]
    exact referenceTransition_eq t0 hsl ch _ p hp (Nat.lt_succ_self _)

/-- C12: after `CalculateLinks` the suffix link of the root is none, and the suffix link of
every other node is the longest proper suffix of its path that is a path of the trie: it is a
node of the trie, strictly shallower, and the root for the nodes of depth 1. -/
theorem C12_suffix_link_correct (b : AhoCorasickBuilder) :
    ∃ t, b.automaton = some t ∧ t.suffix_link_ = none ∧
      ∀ p n, deref t p = some n → p ≠ [] →
        ∃ s, n.suffix_link_ = some s ∧ validB t s = true ∧ s <:+ p ∧ s.length < p.length ∧
          (∀ y, y <:+ p → y.length < p.length → validB t y = true → y.length ≤ s.length) ∧
          (p.length = 1 → s = []) := by
  obtain ⟨t, k, he, hv, -, -, hres, -, -⟩ := automaton_spec b
  have hres0 : ∀ q, validB t q = true → Resolved t q :=
    fun q hq => hres q (by rw [← hv]; exact hq)
  refine ⟨t, by simp [AhoCorasickBuilder.automaton, he], ?_, ?_⟩
  · obtain ⟨n, hn, hsl, -, -⟩ := hres0 [] rfl
    simp only [deref, Option.some.injEq] at hn
    subst hn
    simpa [linkSpec] using hsl
  · intro p n hn hne
    obtain ⟨m, hm, hsl, -, -⟩ := hres0 p (by simp [validB, hn])
    rw [hn] at hm
    have hmn : n = m := Option.some.inj hm
    subst hmn
    simp only [linkSpec, hne, if_false] at hsl
    have hlt := suffixLinkSpec_length_lt (validB t) p hne
    refine ⟨_, hsl, suffixLinkSpec_mem _ (validB_nil t) p,
      (suffixLinkSpec_suffix _ p).trans (List.tail_suffix p), hlt, ?_, ?_⟩
    · intro y hy hylt hyv
      exact (longestSuffix_max (validB t) p.tail y (suffix_tail_of_lt y p hy hylt) hyv).length_le
    · intro h1
      apply List.length_eq_zero.1
      omega
/-- C13, as stated, fails: for the single pattern "a" the suffix link of the child "a" of the
root is the root, while a walk that examines the current node first finds the edge for 'a' at
the root itself and yields the child "a". -/
theorem C13_walk_does_not_examine_curr :
    (AhoCorasickBuilder.mk ["a".toList]).automaton.bind
        (fun t => (deref t "a".toList).map
          (fun n => (n.suffix_link_, specifiedWalkTarget t [] 'a')))
      = some (some [], "a".toList) := by
  decide

/-- C13, amended: the walk for the child `ch` of `curr` examines the nodes of the suffix-link
chain of `curr`, starting with the suffix link of `curr` and never `curr` itself; the suffix
link of the child is the child for `ch` of the first node of that chain that has a trie edge for
`ch`, and it is the root only if no node of the chain has such an edge.  In particular the
suffix links of the children of the root are the root. -/
theorem C13_walk_along_link_chain (b : AhoCorasickBuilder) :
    ∃ t, b.automaton = some t ∧
      (∀ curr ch n, deref t (curr ++ [ch]) = some n →
        n.suffix_link_ = some (walkTarget t curr ch) ∧
        (n.suffix_link_ = some [] →
          ∀ p ∈ linkChain t (curr.length + 1) curr, validB t (p ++ [ch]) = false)) ∧
      (∀ ch n, deref t [ch] = some n → n.suffix_link_ = some []) := by
  obtain ⟨t, k, he, hv, -, -, hres, -, -⟩ := automaton_spec b
  have hres0 : ∀ q, validB t q = true → Resolved t q :=
    fun q hq => hres q (by rw [← hv]; exact hq)
  have key : ∀ curr ch n, deref t (curr ++ [ch]) = some n →
      n.suffix_link_ = some (walkTarget t curr ch) := by
    intro curr ch n hn
    have hvc : validB t (curr ++ [ch]) = true := by simp [validB, hn]
    obtain ⟨m, hm, hsl, -, -⟩ := hres0 _ hvc
    rw [hn] at hm
    have hmn : n = m := Option.some.inj hm
    subst hmn
    rw [hsl, walkTarget_eq t hres0 curr ch (validB_of_append t curr [ch] hvc)]
    simp [linkSpec]
  refine ⟨t, by simp [AhoCorasickBuilder.automaton, he], ?_, ?_⟩
  · intro curr ch n hn
    refine ⟨key curr ch n hn, ?_⟩
    intro hroot p hp
    rw [key curr ch n hn] at hroot
    have hw : walkTarget t curr ch = [] := Option.some.inj hroot
    unfold walkTarget at hw
    cases hf : (linkChain t (curr.length + 1) curr).find? (fun p => validB t (p ++ [ch])) with
    | some q =>
      rw [hf] at hw
      simp at hw
    | none =>
      have := List.find?_eq_none.1 hf p hp
      simpa using this
  · intro ch n hn
    have := key [] ch n (by simpa using hn)
    rw [this]
    simp [walkTarget, linkChain_nil t hres0]

/-- C14: after `CalculateLinks` the terminal link of every node is the first terminal node of
its suffix-link chain, and none exactly when the chain has no terminal node; the terminal link
of the root is none; every terminal link leads to a strictly shallower terminal node of the
trie, so that following terminal links ends. -/
theorem C14_terminal_link_correct (b : AhoCorasickBuilder) :
    ∃ t, b.automaton = some t ∧ t.terminal_link_ = none ∧
      (∀ p n, deref t p = some n →
        n.terminal_link_ = (linkChain t (p.length + 1) p).find? (terminalB t) ∧
        (n.terminal_link_ = none ↔
          ∀ q ∈ linkChain t (p.length + 1) p, terminalB t q = false) ∧
        (p ≠ [] → (linkChain t (p.length + 1) p).getLast? = some [])) ∧
      (∀ p n tl, deref t p = some n → n.terminal_link_ = some tl →
        tl.length < p.length ∧ validB t tl = true ∧ terminalB t tl = true) := by
  obtain ⟨t, k, he, hv, -, -, hres, -, -⟩ := automaton_spec b
  have hres0 : ∀ q, validB t q = true → Resolved t q :=
    fun q hq => hres q (by rw [← hv]; exact hq)
  have key : ∀ p n, deref t p = some n →
      n.terminal_link_ = (linkChain t (p.length + 1) p).find? (terminalB t) := by
    intro p n hn
    have hp : validB t p = true := by simp [validB, hn]
    obtain ⟨m, hm, -, htl, -⟩ := hres0 p hp
    rw [hn] at hm
    have hmn : n = m := Option.some.inj hm
    subst hmn
    rw [htl, terminalLinkSpec_eq_find t hres0 _ p hp]
  refine ⟨t, by simp [AhoCorasickBuilder.automaton, he], ?_, ?_, ?_⟩
  · have := key [] t rfl
    rw [this, linkChain_nil t hres0]
    rfl
  · intro p n hn
    have hp : validB t p = true := by simp [validB, hn]
    refine ⟨key p n hn, ?_, fun hne => linkChain_getLast t hres0 _ p hp hne (Nat.lt_succ_self _)⟩
    rw [key p n hn, List.find?_eq_none]
    simp
  · intro p n tl hn htl
    have hp : validB t p = true := by simp [validB, hn]
    rw [key p n hn] at htl
    have hmem := List.mem_of_find?_eq_some htl
    have hT := List.find?_some htl
    obtain ⟨h1, h2⟩ := linkChain_mem t hres0 _ p tl hp hmem
    exact ⟨h2, h1, hT⟩

/-- C15: after `CalculateLinks` the counter of every node below the root is the maximum of the
final counters of its trie parent and of its suffix link, plus one if the node is terminal. -/
theorem C15_count_recurrence (b : AhoCorasickBuilder) :
    ∃ t, b.automaton = some t ∧
      ∀ x c n, deref t (x ++ [c]) = some n →
        ∃ u sl s, deref t x = some u ∧ n.suffix_link_ = some sl ∧ deref t sl = some s ∧
          n.count_of_nested_substrings =
            max u.count_of_nested_substrings s.count_of_nested_substrings
              + (if n.is_terminal ≠ 0 then 1 else 0) := by
  obtain ⟨t, k, he, hv, -, -, hres, -, -⟩ := automaton_spec b
  have hres0 : ∀ q, validB t q = true → Resolved t q :=
    fun q hq => hres q (by rw [← hv]; exact hq)
  refine ⟨t, by simp [AhoCorasickBuilder.automaton, he], ?_⟩
  intro x c n hn
  have hvc : validB t (x ++ [c]) = true := by simp [validB, hn]
  obtain ⟨m, hm, hsl, -, hcnt⟩ := hres0 _ hvc
  rw [hn] at hm
  have hmn : n = m := Option.some.inj hm
  subst hmn
  obtain ⟨u, hu, -, -, hucnt⟩ := hres0 x (validB_of_append t x [c] hvc)
  obtain ⟨s, hs, -, -, hscnt⟩ := hres0 _ (suffixLinkSpec_mem (validB t) (validB_nil t) (x ++ [c]))
  refine ⟨u, _, s, hu, by rw [hsl]; simp [linkSpec], hs, ?_⟩
  rw [hcnt, hucnt, hscnt, nestedCount_snoc, terminalB_of_deref t n _ hn]
  by_cases h : n.is_terminal = 0 <;> simp [h]

/-- C16, as stated, fails: after the empty pattern was added the root is terminal, yet its
counter is 0, not 1. -/
theorem C16_terminal_root_counts_zero :
    (AhoCorasickBuilder.mk [[]]).automaton.map
        (fun t => (t.is_terminal, t.count_of_nested_substrings))
      = some (1, 0) := by
  decide

/-- C16, amended: after `CalculateLinks` the suffix link and the terminal link of the root are
none, and the counter of the root is 0. -/
theorem C16_root_state (b : AhoCorasickBuilder) :
    ∃ t, b.automaton = some t ∧ t.suffix_link_ = none ∧ t.terminal_link_ = none ∧
      t.count_of_nested_substrings = 0 := by
  obtain ⟨t, k, he, hv, -, -, hres, -, -⟩ := automaton_spec b
  obtain ⟨n, hn, hsl, htl, hcnt⟩ := hres [] rfl
  simp only [deref, Option.some.injEq] at hn
  subst hn
  refine ⟨t, by simp [AhoCorasickBuilder.automaton, he], ?_, ?_, ?_⟩
  · simpa [linkSpec] using hsl
  · simpa [terminalLinkSpec] using htl
  · simpa [nestedCount_nil] using hcnt
/-- C17: the value returned by `CalculateLinks` is the maximum of the counters over all nodes of
the trie, the root included, as they stand when it returns; and the run never enters the
branch of the counting part in which the suffix link of the child is none. -/
theorem C17_result_is_maximum (b : AhoCorasickBuilder) :
    ∃ t k, CalculateLinks b.trie = some (t, k) ∧
      (∀ p n, deref t p = some n → n.count_of_nested_substrings ≤ k) ∧
      (∃ p n, deref t p = some n ∧ n.count_of_nested_substrings = k) ∧
      CalculateLinks.takesNullBranch b.trie = false := by
  obtain ⟨t, k, he, hv, hT, -, hres, hle, ⟨q, hq, hk⟩⟩ := automaton_spec b
  refine ⟨t, k, he, ?_, ?_, takesNullBranch_false b.trie (TrieWF_trie b) (count_trie b)⟩
  · intro p n hn
    have hp : validB b.trie p = true := by
      rw [← hv]; simp [validB, hn]
    obtain ⟨m, hm, -, -, hcnt⟩ := hres p hp
    rw [hn] at hm
    have hmn : n = m := Option.some.inj hm
    subst hmn
    rw [hv, hT] at hcnt
    rw [hcnt]
    exact hle p hp
  · obtain ⟨m, hm, -, -, hcnt⟩ := hres q hq
    rw [hv, hT] at hcnt
    exact ⟨q, m, hm, hcnt.trans hk⟩

/-- C18: after the strings of `L` were added to an empty root, the root is a node and the other
nodes are exactly the non-empty prefixes of the strings of `L`, no node has two edges with the
same character, a node is terminal iff its path is a string of `L`, and the cache of every node
maps the character of each of its trie edges to the child of that edge. -/
theorem C18_trie_correct (L : List (List Char)) :
    validB (L.foldl AddString AhoCorasickNode.init) [] = true ∧
    (∀ q, q ≠ [] →
      (validB (L.foldl AddString AhoCorasickNode.init) q = true ↔ ∃ w ∈ L, q <+: w)) ∧
    (∀ q n, deref (L.foldl AddString AhoCorasickNode.init) q = some n →
      (n.trie_transitions_.map Prod.fst).Nodup ∧
      (n.is_terminal ≠ 0 ↔ q ∈ L) ∧
      ∀ ch c, mapFind n.trie_transitions_ ch = some c →
        mapFind n.automaton_transitions_cache_ ch = some (q ++ [ch]) ∧
        deref (L.foldl AddString AhoCorasickNode.init) (q ++ [ch]) = some c) := by
  have hval := validB_trie (AhoCorasickBuilder.mk L)
  have hterm := terminalB_trie (AhoCorasickBuilder.mk L)
  have hwf := TrieWF_trie (AhoCorasickBuilder.mk L)
  rw [trie_eq] at hval hterm hwf
  refine ⟨rfl, ?_, ?_⟩
  · intro q hq
    rw [hval q]
    simp [hq]
  · intro q n hn
    obtain ⟨h1, h2⟩ := hwf q n hn
    refine ⟨h1, ?_, ?_⟩
    · rw [← hterm q, terminalB_of_deref _ n q hn]
      simp
    · intro ch c hc
      refine ⟨?_, ?_⟩
      · rw [h2 ch, hc]
        rfl
      · rw [deref_snoc, hn]
        exact hc

/-- C19: adding one more pattern never lowers the answer of `Build` and raises it by at most
one. -/
theorem C19_monotone (L : List (List Char)) (p : List Char) :
    ∃ k k1, (AhoCorasickBuilder.mk L).Build = some k ∧
      (AhoCorasickBuilder.mk (L ++ [p])).Build = some k1 ∧ k ≤ k1 ∧ k1 ≤ k + 1 := by
  obtain ⟨k, hk, ⟨c, hc, hlen⟩, hmax⟩ := Build_spec (AhoCorasickBuilder.mk L)
  obtain ⟨k1, hk1, ⟨c1, hc1, hlen1⟩, hmax1⟩ := Build_spec (AhoCorasickBuilder.mk (L ++ [p]))
  refine ⟨k, k1, hk, hk1, ?_, ?_⟩
  · rw [← hlen]
    exact hmax1 c (IsNestedChain_mono L (L ++ [p]) c (fun x hx => List.mem_append_left _ hx) hc)
  · obtain ⟨h1, h2⟩ := IsNestedChain_erase L c1 p hc1
    have := hmax _ h1
    omega

/-- C20: the answer of `Build` is at most the number of distinct non-empty patterns and at most
the length of the longest pattern, and it is at least 1 when some pattern is non-empty. -/
theorem C20_bounds (L : List (List Char)) :
    ∃ k, (AhoCorasickBuilder.mk L).Build = some k ∧
      k ≤ distinctNonEmpty L ∧ k ≤ longestLength L ∧
      ((∃ w ∈ L, w ≠ []) → 1 ≤ k) := by
  obtain ⟨k, hk, ⟨c, hc, hlen⟩, hmax⟩ := Build_spec (AhoCorasickBuilder.mk L)
  refine ⟨k, hk, ?_, ?_, ?_⟩
  · rw [← hlen]
    have hsub : c ⊆ (L.dedup).filter (fun w => !w.isEmpty) := by
      intro x hx
      obtain ⟨h1, h2⟩ := hc.2.1 x hx
      rw [List.mem_filter]
      refine ⟨List.mem_dedup.2 h1, ?_⟩
      cases x with
      | nil => exact absurd rfl h2
      | cons a x => rfl
    exact (List.subperm_of_subset hc.1 hsub).length_le
  · rw [← hlen]
    cases c with
    | nil => simp
    | cons a rest =>
      have ha := hc.2.1 a (List.mem_cons_self _ _)
      have h1 : 1 ≤ a.length := by
        cases a with
        | nil => exact absurd rfl ha.2
        | cons d a => simp
      obtain ⟨q, hq, hle⟩ := chain_le_length rest a 1 hc.1 hc.2.2 h1
      have := le_longestLength L q (hc.2.1 q hq).1
      simp only [List.length_cons]
      omega
  · rintro ⟨w, hw, hne⟩
    exact hmax [w] ⟨List.nodup_singleton _,
      fun x hx => by
        rw [List.mem_singleton] at hx
        subst hx
        exact ⟨hw, hne⟩,
      List.chain'_singleton _⟩
end AhoKorasik
